import Mathlib

/-!
Verification development for the video-knowledge-extractor orchestration core.

Shallow embedding of the Python sources in `src/`:
* `src/workflow.py`   — ProgressTracker, TextCleaner, WorkflowEngine (stage pipeline)
* `src/parallel.py`   — ParallelProcessor (bounded-concurrency scheduler)
* `src/fusion.py`     — KnowledgeFusionSkill (similarity, prefilter sweep, merge)
* `src/clustering.py` — CrossDocumentClusteringSkill (batching, index translation)

External collaborators (Python stdlib / the generative service) are modelled as
explicit parameters where their internals are irrelevant (`json.loads`, the LLM
`generate` capability, regex searches whose exact semantics a claim does not
depend on), and embedded concretely where a claim's truth depends on them
(difflib's `SequenceMatcher.ratio`, brace extraction, the greedy sweep).
Machine floats in the source (similarity weights, thresholds) are modelled as
exact rationals; every concrete (counter)example below stays in a regime where
the float and rational computations order results identically.
-/

set_option maxRecDepth 4000

/-- JSON values as produced by Python's `json.loads`. -/
inductive Json where
  | null : Json
  | bool (b : Bool) : Json
  | num (q : ℚ) : Json
  | str (s : String) : Json
  | arr (elems : List Json) : Json
  | obj (fields : List (String × Json)) : Json

/-- First value for a key in a JSON object, as a Python `dict` lookup
(the concrete inputs used below have no duplicate keys). -/
def Json.lookup (fields : List (String × Json)) (key : String) : Option Json :=
  (fields.find? (fun kv => kv.1 = key)).map (fun kv => kv.2)

/-- Python `str.strip()` on a character list: drop whitespace from both ends. -/
def pyStrip (cs : List Char) : List Char :=
  ((cs.dropWhile Char.isWhitespace).reverse.dropWhile Char.isWhitespace).reverse

/-- Index of the first occurrence of `c`, if any (Python `str.find`). -/
def firstIdxOf (cs : List Char) (c : Char) : Option Nat :=
  cs.findIdx? (fun x => x = c)

/-- Index of the last occurrence of `c`, if any (Python `str.rfind`). -/
def lastIdxOf (cs : List Char) (c : Char) : Option Nat :=
  (cs.reverse.findIdx? (fun x => x = c)).map (fun k => cs.length - 1 - k)

/-- The substring from the first `{` to the last `}`, when the last `}` comes
after the first `{`.  This is simultaneously the semantics of the greedy regex
`r"(\x7b[\s\S]*\x7d)"` under `re.search` (leftmost start = first `{`, greedy
extension = last `}`) and of the `text.find("\x7b") / text.rfind("\x7d")` scan:
both appear in `_parse_json_response` (fusion.py 437-467, clustering.py 388-421)
and in `_stage_structure`'s `re.search(r"\x7b.*\x7d", result, re.DOTALL)`. -/
def extractBraces (cs : List Char) : Option (List Char) :=
  match firstIdxOf cs '{', lastIdxOf cs '}' with
  | some i, some j => if i < j then some ((cs.drop i).take (j - i + 1)) else none
  | _, _ => none

namespace Sched

/-!
### `ParallelProcessor.process_directory` (src/parallel.py lines 19-57)

`run` stands for one task's outcome (`_process_with_limit`, i.e. one
`process_document` run): each task is launched independently and
`asyncio.gather(*tasks, return_exceptions=True)` delivers, in input order, the
task's value or its exception.  The semaphore only sequences execution and does
not change any task's outcome.
-/

/-- The post-gather filtering loop of `process_directory`:
`for i, result in enumerate(results): if isinstance(result, Exception): log
else docs.append(result)`. -/
def collectDocs {ε β : Type} (results : List (Except ε β)) : List β :=
  results.foldl (fun docs r => match r with
    | Except.ok d => docs ++ [d]
    | Except.error _ => docs) []

/-- `ParallelProcessor.process_directory`: discover `files`; if none, return
`[]`; otherwise gather every task's outcome and keep the successes in
discovery order. -/
def processDirectory {α ε β : Type} (run : α → Except ε β) (files : List α) : List β :=
  if files.isEmpty then []
  else collectDocs (files.map run)

theorem collectDocs_eq_aux {ε β : Type} (results : List (Except ε β)) :
    ∀ acc : List β, results.foldl (fun docs r => match r with
        | Except.ok d => docs ++ [d]
        | Except.error _ => docs) acc
      = acc ++ results.filterMap (fun r => r.toOption) := by
  induction results with
  | nil => intro acc; simp
  | cons r rs ih =>
      intro acc
      cases r with
      | ok d => simp [List.foldl, ih, Except.toOption]
      | error e => simp [List.foldl, ih, Except.toOption]

theorem collectDocs_eq {ε β : Type} (results : List (Except ε β)) :
    collectDocs results = results.filterMap (fun r => r.toOption) := by
  simpa [collectDocs] using collectDocs_eq_aux results []

end Sched

/-- **C2.** For every list of discovered documents, the parallel scheduler
returns exactly the successfully processed records in discovery order: a raised
failure in one document's task does not raise out of the whole run and does not
affect any other document's outcome (each outcome is a function of its own
document alone), the failed document is omitted, and an empty input yields an
empty list.  In particular, with 5 documents where task 3 (0-indexed) raises,
the result is the 4 successful records in original order with index 3
omitted. -/
theorem c2_scheduler_discovery_order :
    (∀ (α ε β : Type) (run : α → Except ε β) (files : List α),
        Sched.processDirectory run files
          = files.filterMap (fun f => (run f).toOption))
    ∧ (∀ (α ε β : Type) (run : α → Except ε β),
        Sched.processDirectory run ([] : List α) = ([] : List β))
    ∧ Sched.processDirectory
        (fun n : Nat => if n = 3 then Except.error "boom" else Except.ok n)
        [0, 1, 2, 3, 4] = [0, 1, 2, 4] := by
  refine ⟨?_, ?_, ?_⟩
  · intro α ε β run files
    by_cases h : files.isEmpty
    · rw [List.isEmpty_iff] at h
      simp [Sched.processDirectory, h]
    · rw [Sched.processDirectory, if_neg h, Sched.collectDocs_eq,
        List.filterMap_map]
      rfl
  · intro α ε β run
    simp [Sched.processDirectory]
  · rfl

namespace Ledger

/-!
### `ProgressTracker` (src/workflow.py lines 36-112)

The SQLite tables are modelled as in-memory lists.  `documents.path` is
`UNIQUE`, `id INTEGER PRIMARY KEY` aliases the rowid, the core never deletes a
row, so a successful insert receives `max id + 1` and `cursor.lastrowid`
reports it; an insert ignored by `INSERT OR IGNORE` on the fresh
per-call connection leaves `lastrowid = 0`, so `add_document` falls back to
`_get_doc_id`.  `created_at` is not modelled.  `κ` is the knowledge-point
payload type of the `knowledge_points` table.
-/

structure DocRow where
  id : Nat
  path : String
  status : String
  stage : Option String
  result : Option String
deriving DecidableEq

structure TrackerDB (κ : Type) where
  rows : List DocRow
  kps : List (Nat × κ)
deriving DecidableEq

def maxId (rows : List DocRow) : Nat :=
  rows.foldl (fun m r => max m r.id) 0

/-- `ProgressTracker._get_doc_id`: `SELECT id FROM documents WHERE path = ?`,
`0` when absent. -/
def getDocId {κ : Type} (db : TrackerDB κ) (path : String) : Nat :=
  match db.rows.find? (fun r => r.path = path) with
  | some r => r.id
  | none => 0

/-- `ProgressTracker.add_document`: `INSERT OR IGNORE` keyed on the unique
`path`, then `cursor.lastrowid or self._get_doc_id(path)`. -/
def addDocument {κ : Type} (db : TrackerDB κ) (path : String) : Nat × TrackerDB κ :=
  if db.rows.any (fun r => r.path = path) then
    (getDocId db path, db)
  else
    let nid := maxId db.rows + 1
    (nid, { db with rows := db.rows ++ [⟨nid, path, "pending", none, none⟩] })

/-- `ProgressTracker.update_status`: `UPDATE documents SET status = ?,
stage = ?, result = ? WHERE id = ?` — overwrites all three mutable fields of
every row whose id matches (ids are unique in practice). -/
def updateStatus {κ : Type} (db : TrackerDB κ) (docId : Nat) (status : String)
    (stage : Option String) (result : Option String) : TrackerDB κ :=
  { db with rows := db.rows.map (fun r =>
      if r.id = docId then { r with status := status, stage := stage, result := result }
      else r) }

/-- `ProgressTracker.save_knowledge_point`: appends one fragment row. -/
def saveKnowledgePoint {κ : Type} (db : TrackerDB κ) (docId : Nat) (point : κ) :
    TrackerDB κ :=
  { db with kps := db.kps ++ [(docId, point)] }

/-- With path-unique rows, the rows matching a present path form a singleton. -/
theorem filter_path_single (path : String) :
    ∀ rows : List DocRow, (rows.map (fun r => r.path)).Nodup →
      ∀ r0 ∈ rows, r0.path = path →
        rows.filter (fun r => r.path = path) = [r0] := by
  intro rows
  induction rows with
  | nil => intro _ r0 h; simp at h
  | cons a tl ih =>
      intro hnd r0 hr0 hr0p
      simp only [List.map_cons, List.nodup_cons, List.mem_map] at hnd
      rcases List.mem_cons.mp hr0 with rfl | htl
      · rw [List.filter_cons, if_pos (by simpa using hr0p)]
        have htlnil : tl.filter (fun r => r.path = path) = [] := by
          rw [List.filter_eq_nil_iff]
          intro b hb
          simp only [decide_eq_true_eq]
          intro hbp
          exact hnd.1 ⟨b, hb, by rw [hbp, hr0p]⟩
        rw [htlnil]
      · have hane : ¬(a.path = path) := by
          intro hap
          exact hnd.1 ⟨r0, htl, by rw [hr0p, hap]⟩
        rw [List.filter_cons, if_neg (by simpa using hane)]
        exact ih hnd.2 r0 htl hr0p

theorem find?_path_none {κ : Type} (db : TrackerDB κ) (path : String)
    (h : db.rows.any (fun r => r.path = path) = false) :
    db.rows.find? (fun r => r.path = path) = none := by
  rw [List.find?_eq_none]
  intro x hx
  rw [List.any_eq_false] at h
  exact h x hx

end Ledger

/-- **C9.** For every path, calling `add_document` twice with the same path is
idempotent: the second call performs no insert (the tracker state is
unchanged), it returns the same id as the first call, and the documents table
holds exactly one row for that path afterwards.  The hypothesis is the `path
UNIQUE` schema invariant on the starting table. -/
theorem c9_addDocument_idempotent {κ : Type} (db : Ledger.TrackerDB κ) (path : String)
    (huniq : (db.rows.map (fun r => r.path)).Nodup) :
    (Ledger.addDocument (Ledger.addDocument db path).2 path).1
        = (Ledger.addDocument db path).1
    ∧ (Ledger.addDocument (Ledger.addDocument db path).2 path).2
        = (Ledger.addDocument db path).2
    ∧ (((Ledger.addDocument (Ledger.addDocument db path).2 path).2).rows.filter
        (fun r => r.path = path)).length = 1 := by
  by_cases h : db.rows.any (fun r => r.path = path)
  · -- path already present: both calls look up the id and change nothing
    rw [List.any_eq_true] at h
    obtain ⟨r0, hr0, hr0p⟩ := h
    have hr0p' : r0.path = path := by simpa using hr0p
    have hany : db.rows.any (fun r => r.path = path) = true :=
      List.any_eq_true.mpr ⟨r0, hr0, hr0p⟩
    have h1 : Ledger.addDocument db path = (Ledger.getDocId db path, db) := by
      rw [Ledger.addDocument, if_pos hany]
    rw [h1]
    rw [Ledger.addDocument, if_pos hany]
    refine ⟨rfl, rfl, ?_⟩
    rw [Ledger.filter_path_single path db.rows huniq r0 hr0 hr0p']
    rfl
  · -- path absent: the first call inserts, the second finds the new row
    rw [Bool.not_eq_true] at h
    have hnone := Ledger.find?_path_none db path h
    have hnil : db.rows.filter (fun r => r.path = path) = [] := by
      rw [List.filter_eq_nil_iff]
      intro b hb hbp
      rw [List.any_eq_false] at h
      exact h b hb hbp
    set nid := Ledger.maxId db.rows + 1 with hnid
    set newRow : Ledger.DocRow := ⟨nid, path, "pending", none, none⟩ with hnew
    have h1 : Ledger.addDocument db path
        = (nid, { db with rows := db.rows ++ [newRow] }) := by
      rw [Ledger.addDocument, if_neg (by rw [h]; exact Bool.false_ne_true)]
    rw [h1]
    have hany2 : (db.rows ++ [newRow]).any (fun r => r.path = path) = true := by
      rw [List.any_append]
      simp [newRow]
    have hfind2 : (db.rows ++ [newRow]).find? (fun r => r.path = path)
        = some newRow := by
      rw [List.find?_append, hnone]
      simp [newRow]
    constructor
    · rw [Ledger.addDocument]
      simp only [hany2, if_pos]
      rw [Ledger.getDocId]
      simp only [hfind2]
    · constructor
      · rw [Ledger.addDocument]
        simp only [hany2, if_pos]
      · rw [Ledger.addDocument]
        simp only [hany2, if_pos]
        rw [List.filter_append, hnil]
        simp [newRow]

/-- Witness for C9 at a concrete input: the empty ledger and path `a.srt`. -/
theorem c9_addDocument_idempotent_witness :
    ((([] : List (Ledger.DocRow)).map (fun r => r.path)).Nodup)
    ∧ ((Ledger.addDocument
          (Ledger.addDocument (Ledger.TrackerDB.mk [] ([] : List (Nat × Unit))) "a.srt").2
          "a.srt").1
        = (Ledger.addDocument (Ledger.TrackerDB.mk [] ([] : List (Nat × Unit))) "a.srt").1) :=
  ⟨by simp, (c9_addDocument_idempotent (Ledger.TrackerDB.mk [] ([] : List (Nat × Unit)))
      "a.srt" (by simp)).1⟩

/-- Python `str.strip()` as a `String` operation (kernel-computable). -/
def pyStripStr (s : String) : String := ⟨pyStrip s.data⟩

namespace Cleaner

/-!
### `TextCleaner.clean` (src/workflow.py lines 115-148)

The five `NOISE_PATTERNS` substitutions and the three whitespace substitutions
are Python-`re` passes; `clean` is therefore parameterized by their combined
effects `noise` (the five noise patterns) and `wsClean` (the three whitespace
clean-ups), and by `collapse` standing for the fallback's
`re.sub(r"\s+", " ", text)`.  The structure of `clean` itself — in particular
which intermediate string the over-cleaning guard's fallback is applied to —
is embedded exactly.  The guard `len(text) < original_length * 0.3` is modelled
as `10 * len < 3 * orig`; for every input length below ~10^15 the float and
rational comparisons agree.  Python `.strip()` is `pyStripStr`.
-/

/-- `TextCleaner.clean`.  Note that the guard's fallback re-collapses `t2`
(the noise-cleaned text), not the original `text`, although the inline comment
in the source says it returns the original content. -/
def clean (noise wsClean collapse : String → String) (text : String) : String :=
  let originalLength := text.length
  let t1 := noise text
  let t2 := wsClean t1
  let t3 := if 10 * t2.length < 3 * originalLength then collapse t2 else t2
  pyStripStr t3

/-- `re.sub(r"\s+", " ", s)`: each maximal whitespace run becomes one space. -/
def squeezeWs : List Char → List Char
  | [] => []
  | [c] => if c.isWhitespace then [' '] else [c]
  | c :: d :: rest =>
      if c.isWhitespace ∧ d.isWhitespace then squeezeWs (d :: rest)
      else (if c.isWhitespace then ' ' else c) :: squeezeWs (d :: rest)

def collapseWs (s : String) : String := ⟨squeezeWs s.data⟩

/-- Deletes every occurrence of `"um "`, scanning left to right. -/
def removeUm : List Char → List Char
  | 'u' :: 'm' :: ' ' :: rest => removeUm rest
  | c :: rest => c :: removeUm rest
  | [] => []

/-- The failing input: nine filler words and a two-character core. -/
def umText : String := "um um um um um um um um um hi"

/-- Combined effect of the five `NOISE_PATTERNS` passes on `umText` (verified
against Python `re`): pattern 1 `\b(um|...)\b[,.]?\s*` deletes every `"um "`;
patterns 2-5 are no-ops on the remainder, which contains no whitespace,
commas or CJK filler. -/
def noiseUm (s : String) : String := ⟨removeUm s.data⟩

end Cleaner

/-- **C3** (code bug).  On `umText` the noise patterns remove more than 70% of
the characters (29 → 2), so the guard triggers; the code then collapses and
returns the already-normalized text `"hi"` instead of the original text with
only whitespace collapsing applied (which would be `umText` itself, as its
whitespace is already single spaces).  The `wsClean` parameter is the identity
because the three whitespace substitutions do not alter `"hi"`. -/
theorem c3_cleaner_fallback_keeps_normalization :
    10 * (Cleaner.noiseUm Cleaner.umText).length < 3 * Cleaner.umText.length
    ∧ Cleaner.clean Cleaner.noiseUm (fun s => s) Cleaner.collapseWs Cleaner.umText
        = "hi"
    ∧ pyStripStr (Cleaner.collapseWs Cleaner.umText) = Cleaner.umText
    ∧ ("hi" : String) ≠ Cleaner.umText := by
  refine ⟨by decide, by decide, by decide, by decide⟩

namespace RespParse

/-!
### `_parse_json_response` (src/fusion.py 437-467, textually identical in
src/clustering.py 388-421)

The two fenced-block regex searches are modelled as parameters `fenceJson`
(pattern ```` ```json\s*\n(.*?)\n``` ````) and `fenceAny`
(pattern ```` ```\s*\n(.*?)\n``` ````): a successful search yields the captured
group, and the claims do not depend on their internals.  The third pattern —
the greedy brace regex — and the final `find`/`rfind` scan are embedded
concretely as `extractBraces`.  `loads` stands for `json.loads` returning
`none` exactly when `json.JSONDecodeError` is raised; every call in the
source is wrapped in `try/except`, so the embedded function is total:
`_parse_json_response` never raises.
-/

/-- One iteration of the pattern loop: if the pattern matched, try
`json.loads(match.group(1).strip())`; a parse failure falls through to the
next attempt, exactly like the `continue` in the source. -/
def attempt (extract : List Char → Option (List Char))
    (loads : List Char → Option Json) (text : List Char) : Option Json :=
  (extract text).bind (fun g => loads (pyStrip g))

/-- `_parse_json_response`: the three regex attempts, then
`json.loads(text.strip())`, then the `text.find("\x7b")`/`text.rfind("\x7d")`
scan (unstripped slice), and `\x7b\x7d` when everything failed. -/
def parseJsonResponse (fenceJson fenceAny : List Char → Option (List Char))
    (loads : List Char → Option Json) (text : List Char) : Json :=
  (attempt fenceJson loads text
    <|> attempt fenceAny loads text
    <|> attempt extractBraces loads text
    <|> loads (pyStrip text)
    <|> (extractBraces text).bind loads).getD (Json.obj [])

/-- The extraction chain exactly as the specification describes it: labeled
fence, any fence, brace-delimited substring, whole trimmed text — with no
fifth step. -/
def parseJsonResponseSpec (fenceJson fenceAny : List Char → Option (List Char))
    (loads : List Char → Option Json) (text : List Char) : Json :=
  (attempt fenceJson loads text
    <|> attempt fenceAny loads text
    <|> attempt extractBraces loads text
    <|> loads (pyStrip text)).getD (Json.obj [])

theorem pyStrip_eq_self (cs : List Char)
    (h1 : ∀ c, cs.head? = some c → c.isWhitespace = false)
    (h2 : ∀ c, cs.getLast? = some c → c.isWhitespace = false) :
    pyStrip cs = cs := by
  have d1 : cs.dropWhile Char.isWhitespace = cs := by
    cases cs with
    | nil => rfl
    | cons c tl =>
        rw [List.dropWhile_cons, if_neg]
        rw [h1 c rfl]
        simp
  rw [pyStrip, d1]
  have d2 : cs.reverse.dropWhile Char.isWhitespace = cs.reverse := by
    cases hrev : cs.reverse with
    | nil => rfl
    | cons c tl =>
        rw [List.dropWhile_cons, if_neg]
        have : cs.getLast? = some c := by
          rw [← List.head?_reverse, hrev]
          rfl
        rw [h2 c this]
        simp
  rw [d2, List.reverse_reverse]

theorem extractBraces_head (cs g : List Char) (h : extractBraces cs = some g) :
    g.head? = some '{' ∧ g.getLast? = some '}' := by
  rw [extractBraces] at h
  rcases hf : firstIdxOf cs '{' with _ | i
  · rw [hf] at h; cases h
  rcases hl : lastIdxOf cs '}' with _ | j
  · rw [hf, hl] at h; cases h
  rw [hf, hl] at h
  dsimp only at h
  by_cases hij : i < j
  · rw [if_pos hij] at h
    have hg : g = (cs.drop i).take (j - i + 1) := (Option.some_inj.mp h).symm
    -- facts about i and j
    have hi : i < cs.length ∧ cs[i]? = some '{' := by
      rw [firstIdxOf] at hf
      have hlt := List.findIdx?_eq_some_iff_findIdx_eq.mp hf
      obtain ⟨hlen, _⟩ := hlt
      refine ⟨hlen, ?_⟩
      have := List.findIdx?_eq_some_iff_getElem.mp hf
      obtain ⟨h', hp, _⟩ := this
      rw [List.getElem?_eq_getElem h']
      simpa using hp
    have hj : j < cs.length ∧ cs[j]? = some '}' := by
      rw [lastIdxOf] at hl
      rcases hrf : cs.reverse.findIdx? (fun x => x = '}') with _ | k
      · rw [hrf] at hl; cases hl
      rw [hrf] at hl
      have hk := List.findIdx?_eq_some_iff_getElem.mp hrf
      obtain ⟨hklen, hkp, _⟩ := hk
      have hklen' : k < cs.length := by
        rw [List.length_reverse] at hklen; exact hklen
      have hjval : cs.length - 1 - k = j := by simpa using hl
      subst hjval
      refine ⟨by omega, ?_⟩
      rw [List.getElem?_eq_getElem (by omega : cs.length - 1 - k < cs.length)]
      have hrev := List.getElem_reverse (l := cs) (i := k) hklen
      rw [hrev] at hkp
      simpa using hkp
    have hlen : ((cs.drop i).take (j - i + 1)).length = j - i + 1 := by
      rw [List.length_take, List.length_drop]
      omega
    constructor
    · rw [hg]
      rw [List.head?_take, List.head?_drop]
      have h0 : cs[i]? = some '{' := hi.2
      simp [h0]
    · rw [hg]
      rw [List.getLast?_eq_getElem?, hlen]
      simp only [Nat.add_sub_cancel]
      rw [List.getElem?_take, List.getElem?_drop]
      have : i + (j - i) = j := by omega
      rw [if_pos (by omega), this, hj.2]
  · rw [if_neg hij] at h; cases h

theorem stripped_extract (cs g : List Char) (h : extractBraces cs = some g) :
    pyStrip g = g := by
  obtain ⟨h1, h2⟩ := extractBraces_head cs g h
  refine pyStrip_eq_self g ?_ ?_
  · intro c hc; rw [h1] at hc; cases hc; rfl
  · intro c hc; rw [h2] at hc; cases hc; rfl

/-- The fifth step (the `find`/`rfind` scan) can never fire: it extracts the
same substring as the third pattern, whose stripped form is itself. -/
theorem lastStep_dead (loads : List Char → Option Json) (text : List Char)
    (h : attempt extractBraces loads text = none) :
    (extractBraces text).bind loads = none := by
  rcases hx : extractBraces text with _ | g
  · rfl
  · rw [attempt, hx, Option.some_bind] at h
    rw [Option.some_bind, ← stripped_extract text g hx]
    exact h

end RespParse

/-- **C8.** For every input, `_parse_json_response` returns a structured value
and never raises: it tries, in fixed priority order, the json-labeled fenced
block, any fenced block, the brace-delimited substring from the first `{` to
the last `}`, and the whole trimmed text; the first attempt that parses wins
(the trailing `find`/`rfind` step in the source is dead code, since it
re-extracts the very substring the third attempt already failed to parse), and
when every attempt fails the empty structure `\x7b\x7d` is returned. -/
theorem c8_parse_chain (fenceJson fenceAny : List Char → Option (List Char))
    (loads : List Char → Option Json) (text : List Char) :
    RespParse.parseJsonResponse fenceJson fenceAny loads text
      = RespParse.parseJsonResponseSpec fenceJson fenceAny loads text
    ∧ (fenceJson text = none → fenceAny text = none →
        extractBraces text = none → loads (pyStrip text) = none →
        RespParse.parseJsonResponse fenceJson fenceAny loads text = Json.obj []) := by
  constructor
  · rw [RespParse.parseJsonResponse, RespParse.parseJsonResponseSpec]
    rcases h1 : RespParse.attempt fenceJson loads text with _ | j
    · rcases h2 : RespParse.attempt fenceAny loads text with _ | j
      · rcases h3 : RespParse.attempt extractBraces loads text with _ | j
        · rcases h4 : loads (pyStrip text) with _ | j
          · simp [Option.orElse, RespParse.lastStep_dead loads text h3]
          · simp [Option.orElse]
        · simp [Option.orElse]
      · simp [Option.orElse]
    · simp [Option.orElse]
  · intro hfj hfa hbr hld
    rw [RespParse.parseJsonResponse]
    rw [RespParse.attempt, hfj, RespParse.attempt, hfa, RespParse.attempt, hbr, hld]
    rfl

/-- Witness for C8: the spec's own example — an input with no braces and no
fences yields the empty structure rather than an exception. -/
theorem c8_parse_chain_witness :
    RespParse.parseJsonResponse (fun _ => none) (fun _ => none) (fun _ => none)
        ("no json here".data) = Json.obj [] :=
  (c8_parse_chain (fun _ => none) (fun _ => none) (fun _ => none)
      ("no json here".data)).2 rfl rfl (by decide) rfl

namespace Cluster

/-!
### `CrossDocumentClusteringSkill._identify_topics` (src/clustering.py 98-192)
and `_create_batches` (356-364)

The per-batch generative call and its JSON parse are modelled by
`llm : Nat → Option (List (List Nat))`: for batch `b`, `some tss` is the list
of returned topics projected to their `point_indices` lists, and `none` is the
exception path of the `try/except` (degrade to one singleton topic per
fragment of the batch).  The final `_merge_similar_topics` call (line 191) is
downstream of the index translation and not part of these claims.
-/

/-- Number of iterations of `range(0, n, size)` for `size > 0`. -/
def numBatches (size n : Nat) : Nat := (n + size - 1) / size

/-- `_create_batches`: `all_points[i : i + size]` for `i = 0, size, 2·size, …` -/
def createBatches {α : Type} (size : Nat) (points : List α) : List (List α) :=
  (List.range (numBatches size points.length)).map
    (fun b => (points.drop (b * size)).take size)

/-- The index adjustment applied to one topic's `point_indices`:
`if batch_idx > 0: [i + offset for i in idxs if i < len(batch_points)]`,
with `offset = batch_idx * max_points_per_batch`.  For batch 0 the list is
passed through untouched. -/
def adjustIndices (size b batchLen : Nat) (idxs : List Nat) : List Nat :=
  if 0 < b then (idxs.filter (fun i => i < batchLen)).map (fun i => i + b * size)
  else idxs

/-- The batch loop of `_identify_topics`, collecting every emitted topic's
`point_indices` in order. -/
def identifyTopics {α : Type} (size : Nat) (llm : Nat → Option (List (List Nat)))
    (points : List α) : List (List Nat) :=
  let batches := createBatches size points
  (List.range batches.length).foldl (fun allTopics b =>
    let batchLen := (batches.getD b []).length
    match llm b with
    | some topicIdxs =>
        allTopics ++ topicIdxs.map (fun idxs => adjustIndices size b batchLen idxs)
    | none =>
        allTopics ++ (List.range batchLen).map (fun i => [b * size + i])) []

end Cluster

/-- **C4 counterexample.** With 3 fragments (a single batch, so `b = 0`) and a
generative reply naming local indices `[0, 7]`, the code performs no
translation and no filtering: the out-of-range translated index `7 ≥ 3`
survives, contradicting "any translated index ≥ the true fragment count is
discarded". -/
theorem c4_batch0_out_of_range_kept :
    Cluster.identifyTopics 50 (fun _ => some [[0, 7]]) (List.replicate 3 ())
        = [[0, 7]]
    ∧ ¬ (∀ t ∈ Cluster.identifyTopics 50 (fun _ => some [[0, 7]])
          (List.replicate 3 ()), ∀ k ∈ t, k < (List.replicate 3 ()).length) := by
  refine ⟨by decide, by decide⟩

/-- **C4 amended.** Translation and filtering happen only for batches `b ≥ 1`:
there, a local index `k` is kept iff `k <` the batch's length, and is mapped
to `b·size + k`; every kept translated index is below the true fragment count.
(Batch 0's indices are passed through untranslated and unfiltered, as the
counterexample shows.)  With 120 fragments and batch size 50, batch 2 has
length `min 50 (120 − 100) = 20` and local index 5 maps to global 105. -/
theorem c4_batch_translation {α : Type} (size n b : Nat) (idxs : List Nat)
    (points : List α) (hsize : 0 < size) (hb : 0 < b)
    (hbn : b < Cluster.numBatches size n) (hpts : points.length = n) :
    ((Cluster.createBatches size points).getD b []).length
        = min size (n - b * size)
    ∧ Cluster.adjustIndices size b (min size (n - b * size)) idxs
        = (idxs.filter (fun i => i < min size (n - b * size))).map
            (fun i => i + b * size)
    ∧ (∀ j ∈ Cluster.adjustIndices size b (min size (n - b * size)) idxs, j < n)
    ∧ Cluster.identifyTopics 50 (fun b' => if b' = 2 then some [[5]] else some [])
        (List.replicate 120 ()) = [[105]] := by
  have hmul : b * size < n := by
    have h1 : b + 1 ≤ (n + size - 1) / size := hbn
    have h2 : (b + 1) * size ≤ n + size - 1 :=
      (Nat.le_div_iff_mul_le hsize).mp h1
    have h3 : 0 < n := by
      rcases Nat.eq_zero_or_pos n with h0 | h0
      · subst h0
        have : Cluster.numBatches size 0 = 0 := by
          rw [Cluster.numBatches]
          rw [Nat.zero_add]
          exact Nat.div_eq_of_lt (by omega)
        rw [this] at hbn
        omega
      · exact h0
    calc b * size = (b + 1) * size - size := by ring_nf; omega
    _ < n := by omega
  refine ⟨?_, ?_, ?_, by decide⟩
  · rw [Cluster.createBatches, hpts]
    have hget : ((List.range (Cluster.numBatches size n)).map
        (fun b => (points.drop (b * size)).take size)).getD b []
        = (points.drop (b * size)).take size := by
      rw [List.getD, List.get?_map, List.get?_range hbn]
      rfl
    rw [hget, List.length_take, List.length_drop, hpts]
  · rw [Cluster.adjustIndices, if_pos hb]
  · intro j hj
    rw [Cluster.adjustIndices, if_pos hb] at hj
    obtain ⟨i, hi, rfl⟩ := List.mem_map.mp hj
    have := (List.mem_filter.mp hi).2
    have hilt : i < min size (n - b * size) := by simpa using this
    omega

/-- Witness for C4's amended theorem at the spec's own example: 120 fragments,
batch size 50, batch 2, local index 5. -/
theorem c4_batch_translation_witness :
    (0 < 50 ∧ 0 < 2 ∧ 2 < Cluster.numBatches 50 120 ∧
      (List.replicate 120 ()).length = 120)
    ∧ Cluster.adjustIndices 50 2 (min 50 (120 - 2 * 50)) [5]
        = ([5].filter (fun i => i < min 50 (120 - 2 * 50))).map
            (fun i => i + 2 * 50) :=
  ⟨⟨by decide, by decide, by decide, by decide⟩,
    (c4_batch_translation 50 120 2 [5] (List.replicate 120 ())
      (by decide) (by decide) (by decide) (by decide)).2.1⟩

namespace Difflib

/-!
### `difflib.SequenceMatcher(None, a, b).ratio()` — Python 3 stdlib

`_calculate_similarity` (src/fusion.py 140-151) delegates to difflib, so the
matcher is embedded concretely, over `List Char`:

* `b2j` — occurrence map of `b`, with the `autojunk` rule (for `len(b) ≥ 200`,
  characters occurring more than `len(b) // 100 + 1` times are dropped);
  `isjunk=None`, so the junk set proper is empty.
* `scanBest` — the dynamic-programming scan of `find_longest_match` (the
  `j2len` rows); `j2len` is modelled as a total function defaulting to 0.
* `extendFront`/`extendBack` — the while loops that extend the best block
  over equal elements; they are written with an explicit fuel that is
  sufficient at every call site (when the fuel runs out the guard is already
  false), so the fueled function equals the Python loop.
* `matchTotal` — the sum of the sizes of `get_matching_blocks`, via the
  recursion "find the longest block, recurse left and right"; the fuel
  `la + lb + 1` dominates the recursion depth, since each level strictly
  shrinks the rectangle.
* `ratioOf` — `2·M / (la+lb)`, and `1.0` for two empty sequences, as
  `_calculate_ratio` does.

Nat subtraction in `i - k + 1`-style expressions is exact at every reachable
state (`k ≤ i + 1 - alo` is an invariant of the scan, proved below).
-/

/-- `b2j` with the autojunk rule: positions of `c` in `b`, empty when `c` is
"popular" (`len(b) ≥ 200` and more than `len(b) // 100 + 1` occurrences). -/
def b2j (b : List Char) (c : Char) : List Nat :=
  if 200 ≤ b.length ∧ b.length / 100 + 1 < b.count c then []
  else (List.range b.length).filter (fun j => b.getD j ' ' = c)

/-- `a[x] == b[y]`, false when out of range (never happens at call sites). -/
def matchAt (a b : List Char) (x y : Nat) : Bool :=
  match a.get? x, b.get? y with
  | some ca, some cb => ca = cb
  | _, _ => false

/-- `keep b[y]`, false when out of range. -/
def keepAt (b : List Char) (keep : Char → Bool) (y : Nat) : Bool :=
  match b.get? y with
  | some c => keep c
  | none => false

/-- Inner loop of the scan: one `j` of `b2j[a[i]]`.
`k = newj2len[j] = j2len.get(j-1, 0) + 1`, then
`if k > bestsize: best = (i-k+1, j-k+1, k)`. -/
def innerStep (j2lenPrev : Nat → Nat) (i : Nat)
    (st : (Nat → Nat) × (Nat × Nat × Nat)) (j : Nat) : (Nat → Nat) × (Nat × Nat × Nat) :=
  let k := (if j = 0 then 0 else j2lenPrev (j - 1)) + 1
  let nj : Nat → Nat := fun x => if x = j then k else st.1 x
  if st.2.2.2 < k then (nj, (i + 1 - k, j + 1 - k, k)) else (nj, st.2)

/-- Outer loop of the scan: one row `i`; `if j < blo: continue` / `if j >= bhi:
break` filter the ascending occurrence list. -/
def rowStep (a b : List Char) (blo bhi : Nat)
    (st : (Nat → Nat) × (Nat × Nat × Nat)) (i : Nat) : (Nat → Nat) × (Nat × Nat × Nat) :=
  let js := (b2j b (a.getD i ' ')).filter (fun j => blo ≤ j ∧ j < bhi)
  js.foldl (innerStep st.1 i) ((fun _ => 0), st.2)

/-- The full dynamic-programming scan of `find_longest_match`, returning
`(besti, bestj, bestsize)` before the extension loops. -/
def scanBest (a b : List Char) (alo ahi blo bhi : Nat) : Nat × Nat × Nat :=
  (((List.range (ahi - alo)).map (fun t => alo + t)).foldl (rowStep a b blo bhi)
    ((fun _ : Nat => 0), (alo, blo, 0))).2

/-- `while besti > alo and bestj > blo and keep(b[bestj-1]) and
a[besti-1] == b[bestj-1]: besti, bestj, bestsize = besti-1, bestj-1,
bestsize+1` — fueled; fuel `besti - alo` is always sufficient. -/
def extendFront (a b : List Char) (alo blo : Nat) (keep : Char → Bool) :
    Nat → Nat × Nat × Nat → Nat × Nat × Nat
  | 0, st => st
  | fuel + 1, (bi, bj, bk) =>
      if alo < bi ∧ blo < bj ∧ keepAt b keep (bj - 1) = true
          ∧ matchAt a b (bi - 1) (bj - 1) = true
      then extendFront a b alo blo keep fuel (bi - 1, bj - 1, bk + 1)
      else (bi, bj, bk)

/-- `while besti+bestsize < ahi and bestj+bestsize < bhi and keep(...) and
a[besti+bestsize] == b[bestj+bestsize]: bestsize += 1` — fueled; fuel
`bhi - (bestj + bestsize)` is always sufficient. -/
def extendBack (a b : List Char) (ahi bhi : Nat) (keep : Char → Bool) :
    Nat → Nat × Nat × Nat → Nat × Nat × Nat
  | 0, st => st
  | fuel + 1, (bi, bj, bk) =>
      if bi + bk < ahi ∧ bj + bk < bhi ∧ keepAt b keep (bj + bk) = true
          ∧ matchAt a b (bi + bk) (bj + bk) = true
      then extendBack a b ahi bhi keep fuel (bi, bj, bk + 1)
      else (bi, bj, bk)

/-- `find_longest_match`: the scan, then the two non-junk extension loops,
then the two junk extension loops (`isjunk=None` makes the junk set empty, so
their guards — which require a junk element — never hold; they are kept for
shape). -/
def findLongestMatch (a b : List Char) (alo ahi blo bhi : Nat) : Nat × Nat × Nat :=
  let s0 := scanBest a b alo ahi blo bhi
  let s1 := extendFront a b alo blo (fun _ => true) (s0.1 - alo) s0
  let s2 := extendBack a b ahi bhi (fun _ => true) (bhi - (s1.2.1 + s1.2.2)) s1
  let s3 := extendFront a b alo blo (fun _ => false) (s2.1 - alo) s2
  extendBack a b ahi bhi (fun _ => false) (bhi - (s3.2.1 + s3.2.2)) s3

/-- Total size of `get_matching_blocks` on a rectangle: the queue algorithm
sums exactly the recursive "longest block + left part + right part". -/
def matchTotal (a b : List Char) : Nat → Nat × Nat × Nat × Nat → Nat
  | 0, _ => 0
  | fuel + 1, (alo, ahi, blo, bhi) =>
      let r := findLongestMatch a b alo ahi blo bhi
      if r.2.2 = 0 then 0
      else r.2.2 + matchTotal a b fuel (alo, r.1, blo, r.2.1)
            + matchTotal a b fuel (r.1 + r.2.2, ahi, r.2.1 + r.2.2, bhi)

/-- `SequenceMatcher(None, a, b).ratio() = 2·M / (len(a)+len(b))`, and `1.0`
when both are empty (`_calculate_ratio`).  The quotient is built with `mkRat`
(the same rational as `2·M / (la+lb)`, see `ratioOf_eq_div`). -/
def ratioOf (a b : List Char) : ℚ :=
  if a.length + b.length = 0 then 1
  else mkRat (2 * matchTotal a b (a.length + b.length + 1) (0, a.length, 0, b.length))
        (a.length + b.length)

theorem ratioOf_eq_div (a b : List Char) (h : a.length + b.length ≠ 0) :
    ratioOf a b
      = 2 * (matchTotal a b (a.length + b.length + 1) (0, a.length, 0, b.length) : ℚ)
        / (a.length + b.length) := by
  rw [ratioOf, if_neg h, Rat.mkRat_eq_div]
  push_cast
  ring

end Difflib


theorem ratio_examples :
    Difflib.ratioOf "ab".data "bacb".data = mkRat 2 3
    ∧ Difflib.ratioOf "bacb".data "ab".data = mkRat 1 3
    ∧ Difflib.ratioOf "a".data "a".data = 1
    ∧ Difflib.ratioOf "".data "".data = 1 := by
  refine ⟨by decide, by decide, by decide, by decide⟩

namespace Fusion

/-!
### `KnowledgeFusionSkill` (src/fusion.py)

`KnowledgePoint` carries the fields `_calculate_similarity`, the sweep and the
merge phase read.  Python `str.lower()` is modelled character-wise
(`Char.toLower`), which agrees with CPython on every character the concrete
examples use.
-/

structure KnowledgePoint where
  title : String
  content : String
  video_markers : List (String × String) := []
  source_file : String := ""
  importance : Nat := 3
deriving DecidableEq, Inhabited

def lowerChars (cs : List Char) : List Char := cs.map Char.toLower

/-- `_calculate_similarity` (fusion.py 140-151):
`SequenceMatcher(None, p1.title.lower(), p2.title.lower()).ratio() * 0.6 +
SequenceMatcher(None, p1.content[:200].lower(), p2.content[:200].lower()).ratio() * 0.4`. -/
def calculateSimilarity (p1 p2 : KnowledgePoint) : ℚ :=
  let titleSim := Difflib.ratioOf (lowerChars p1.title.data) (lowerChars p2.title.data)
  let contentSim := Difflib.ratioOf (lowerChars (p1.content.data.take 200))
      (lowerChars (p2.content.data.take 200))
  titleSim * (3/5) + contentSim * (2/5)

/-!
#### The prefilter sweep (`_find_similar_candidates`, fusion.py 99-138)

The n×n similarity matrix is symmetric by construction and the sweep reads
only entries `(i, j)` with `i < j`, so the matrix is modelled as the function
`sim` over index pairs.  `sweepStep` is one iteration of the outer `for i`
loop: skip visited `i`, collect every unvisited `j > i` with
`sim i j ≥ θ`, mark everything collected visited, and keep the group when its
size exceeds 1.  (Marking `j` visited inside the inner loop cannot affect the
same row's later iterations, since each `j` is examined once; the visited
list therefore updates once per row, faithfully.)
-/

def sweepStep (sim : Nat → Nat → ℚ) (θ : ℚ) (n : Nat)
    (acc : List Nat × List (List Nat)) (i : Nat) : List Nat × List (List Nat) :=
  if i ∈ acc.1 then acc
  else
    let members := (List.range n).filter
      (fun j => i < j ∧ j ∉ acc.1 ∧ θ ≤ sim i j)
    if members.isEmpty then (acc.1 ++ [i], acc.2)
    else (acc.1 ++ i :: members, acc.2 ++ [i :: members])

def findSimilarCandidatesAux (sim : Nat → Nat → ℚ) (θ : ℚ) (n : Nat) :
    List (List Nat) :=
  ((List.range n).foldl (sweepStep sim θ n) ([], [])).2

/-- `_find_similar_candidates` over an actual fragment list, with
`similarity_matrix[i][j] = _calculate_similarity(points[i], points[j])`
(indices produced by the sweep are always in range). -/
def findSimilarCandidates (θ : ℚ) (points : List KnowledgePoint) :
    List (List Nat) :=
  findSimilarCandidatesAux
    (fun i j => calculateSimilarity (points.getD i default) (points.getD j default))
    θ points.length

theorem foldl_preserve {β γ : Type} (step : γ → β → γ) (P : γ → Prop)
    (hstep : ∀ acc b, P acc → P (step acc b)) :
    ∀ (l : List β) (acc : γ), P acc → P (l.foldl step acc) := by
  intro l
  induction l with
  | nil => intro acc h; exact h
  | cons b bs ih => intro acc h; exact ih (step acc b) (hstep acc b h)

/-- Shape invariant of the sweep: every emitted group is a head `i` followed
by a nonempty list of indices `j > i` (all below `n`) whose similarity to `i`
clears the threshold. -/
theorem sweep_groups_shape (sim : Nat → Nat → ℚ) (θ : ℚ) (n : Nat) :
    ∀ g ∈ findSimilarCandidatesAux sim θ n,
      ∃ i ms, g = i :: ms ∧ ms ≠ []
        ∧ ∀ j ∈ ms, i < j ∧ j < n ∧ θ ≤ sim i j := by
  have key : ∀ (l : List Nat) (acc : List Nat × List (List Nat)),
      (∀ g ∈ acc.2, ∃ i ms, g = i :: ms ∧ ms ≠ []
        ∧ ∀ j ∈ ms, i < j ∧ j < n ∧ θ ≤ sim i j) →
      (∀ g ∈ (l.foldl (sweepStep sim θ n) acc).2, ∃ i ms, g = i :: ms ∧ ms ≠ []
        ∧ ∀ j ∈ ms, i < j ∧ j < n ∧ θ ≤ sim i j) := by
    intro l
    refine foldl_preserve (sweepStep sim θ n) _ ?_ l
    intro acc i hP
    rw [sweepStep]
    by_cases hvis : i ∈ acc.1
    · rw [if_pos hvis]; exact hP
    · rw [if_neg hvis]
      set members := (List.range n).filter
        (fun j => i < j ∧ j ∉ acc.1 ∧ θ ≤ sim i j) with hmem
      by_cases hemp : members.isEmpty
      · rw [if_pos hemp]; exact hP
      · rw [if_neg hemp]
        intro g hg
        rcases List.mem_append.mp hg with hold | hnew
        · exact hP g hold
        · have hgeq : g = i :: members := by simpa using hnew
          refine ⟨i, members, hgeq, ?_, ?_⟩
          · intro hnil
            rw [hnil] at hemp
            simp at hemp
          · intro j hj
            rw [hmem] at hj
            have := List.mem_filter.mp hj
            have hrange := List.mem_range.mp this.1
            have hprop := this.2
            simp only [decide_eq_true_eq] at hprop
            exact ⟨hprop.1, hrange, hprop.2.2⟩
  intro g hg
  exact key (List.range n) ([], []) (by intro g hg; simp at hg) g hg

end Fusion

/-- **C6.** For every fragment list and threshold θ, the prefilter computes
its candidate groups by the single greedy sweep: the earliest unvisited index
`i` always heads its group, every other member `j` satisfies `j > i` and
`similarity(i,j) ≥ θ` (and is in range), groups of size 1 are discarded, and
the computation is a pure function of the fragment list and θ — two runs on
the same input give identical groups, and the result depends on the
similarity values and θ alone. -/
theorem c6_prefilter_greedy_sweep (θ : ℚ) (points : List Fusion.KnowledgePoint) :
    (∀ g ∈ Fusion.findSimilarCandidates θ points,
        2 ≤ g.length
        ∧ ∃ i ms, g = i :: ms ∧ ∀ j ∈ ms,
            i < j ∧ j < points.length
            ∧ θ ≤ Fusion.calculateSimilarity (points.getD i default)
                    (points.getD j default))
    ∧ Fusion.findSimilarCandidates θ points
        = Fusion.findSimilarCandidates θ points
    ∧ ∀ (sim' : Nat → Nat → ℚ),
        (∀ i j, Fusion.calculateSimilarity (points.getD i default)
            (points.getD j default) = sim' i j) →
        Fusion.findSimilarCandidates θ points
          = Fusion.findSimilarCandidatesAux sim' θ points.length := by
  refine ⟨?_, rfl, ?_⟩
  · intro g hg
    obtain ⟨i, ms, hgeq, hne, hmem⟩ :=
      Fusion.sweep_groups_shape _ θ points.length g hg
    constructor
    · rw [hgeq]
      rcases ms with _ | ⟨m, ms'⟩
      · exact absurd rfl hne
      · simp
    · exact ⟨i, ms, hgeq, fun j hj => (hmem j hj)⟩
  · intro sim' hsim
    rw [Fusion.findSimilarCandidates]
    congr 1
    funext i j
    exact hsim i j

/-- Evaluation of the sweep on two fragments whose similarity clears θ. -/
theorem sweep_two_eval (sim : Nat → Nat → ℚ) (θ : ℚ) (h : θ ≤ sim 0 1) :
    Fusion.findSimilarCandidatesAux sim θ 2 = [[0, 1]] := by
  have hr : List.range 2 = [0, 1] := by decide
  rw [Fusion.findSimilarCandidatesAux, hr]
  have hfil : (List.range 2).filter
      (fun j => decide (0 < j ∧ j ∉ ([] : List Nat) ∧ θ ≤ sim 0 j)) = [1] := by
    rw [hr]
    simp [List.filter, h]
  have hstep0 : Fusion.sweepStep sim θ 2 ([], []) 0 = ([0, 1], [[0, 1]]) := by
    rw [Fusion.sweepStep]
    rw [if_neg (by simp)]
    simp only [hfil]
    rfl
  have hstep1 : Fusion.sweepStep sim θ 2 ([0, 1], [[0, 1]]) 1 = ([0, 1], [[0, 1]]) := by
    rw [Fusion.sweepStep]
    rw [if_pos (by simp)]
  rw [List.foldl_cons, hstep0, List.foldl_cons, hstep1, List.foldl_nil]

/-- Witness for C6: two fragments titled `"a"` with empty content; their
similarity is `1 ≥ 3/4`, so the sweep produces the single group `[0, 1]`,
to which the theorem applies. -/
theorem c6_prefilter_greedy_sweep_witness :
    [0, 1] ∈ Fusion.findSimilarCandidates (mkRat 3 4)
        [⟨"a", "", [], "", 3⟩, ⟨"a", "", [], "", 3⟩]
    ∧ 2 ≤ ([0, 1] : List Nat).length := by
  have hsim : Fusion.calculateSimilarity
      (⟨"a", "", [], "", 3⟩ : Fusion.KnowledgePoint) ⟨"a", "", [], "", 3⟩ = 1 := by
    rw [Fusion.calculateSimilarity]
    have h1 : Difflib.ratioOf (Fusion.lowerChars ("a".data))
        (Fusion.lowerChars ("a".data)) = 1 := by decide
    have h2 : Difflib.ratioOf (Fusion.lowerChars ("".data.take 200))
        (Fusion.lowerChars ("".data.take 200)) = 1 := by decide
    rw [h1, h2]
    norm_num
  have hle : mkRat 3 4 ≤ Fusion.calculateSimilarity
      (([⟨"a", "", [], "", 3⟩, ⟨"a", "", [], "", 3⟩] :
          List Fusion.KnowledgePoint).getD 0 default)
      (([⟨"a", "", [], "", 3⟩, ⟨"a", "", [], "", 3⟩] :
          List Fusion.KnowledgePoint).getD 1 default) := by
    rw [show (([⟨"a", "", [], "", 3⟩, ⟨"a", "", [], "", 3⟩] :
        List Fusion.KnowledgePoint).getD 0 default) = ⟨"a", "", [], "", 3⟩ from rfl,
      show (([⟨"a", "", [], "", 3⟩, ⟨"a", "", [], "", 3⟩] :
        List Fusion.KnowledgePoint).getD 1 default) = ⟨"a", "", [], "", 3⟩ from rfl,
      hsim]
    rw [show ((1 : ℚ)) = mkRat 1 1 by norm_num [Rat.mkRat_eq_div]]
    decide
  have heval : Fusion.findSimilarCandidates (mkRat 3 4)
      [⟨"a", "", [], "", 3⟩, ⟨"a", "", [], "", 3⟩] = [[0, 1]] := by
    rw [Fusion.findSimilarCandidates]
    exact sweep_two_eval _ _ hle
  refine ⟨?_, ?_⟩
  · rw [heval]; exact List.mem_singleton.mpr rfl
  · exact ((c6_prefilter_greedy_sweep (mkRat 3 4)
      [⟨"a", "", [], "", 3⟩, ⟨"a", "", [], "", 3⟩]).1 [0, 1]
      (by rw [heval]; exact List.mem_singleton.mpr rfl)).1

namespace Fusion

/-!
#### The merge phase (`_merge_all_groups` / `_merge_group` / `_to_merged`,
src/fusion.py 227-310, 425-435)

The generative call of `_merge_group` is the parameter
`llmMerge : List KnowledgePoint → Option String` (`some` = the reply text,
`none` = the exception path; the prompt itself is built from at most the first
5 members, which the parameter absorbs).  Python's `list(set(...))` for
`sources` has unspecified iteration order; it is modelled as first-occurrence
deduplication — no claim below depends on that order.
-/

structure MergedKnowledge where
  title : String
  content : String
  sources : List String
  video_markers : List (String × String) := []
  examples : List String := []
  confidence : ℚ := 1
  merged_from : Nat := 1

structure DuplicateGroup where
  best_title : String
  indices : List Nat
  similarity_scores : List ℚ
  reason : String

/-- Python `needle in hay` for strings. -/
def containsSub (hay needle : List Char) : Bool :=
  (List.range (hay.length + 1)).any (fun k => needle.isPrefixOf (hay.drop k))

/-- `_extract_examples` (fusion.py 339-353). -/
def extractExamples (points : List KnowledgePoint) : List String :=
  (points.foldl (fun acc p =>
    acc ++ ((p.content.splitOn "\n").filter (fun line =>
        (["例", "例题", "示例", "例子", "example", "Example"].any
          (fun kw => containsSub line.data kw.data))
        ∧ 20 < line.length ∧ line.length < 500)).map pyStripStr) []).take 3

/-- One `re.sub(r"^<pre>[:：]\s*", "", content)` pass. -/
def stripHeadPat (pre : String) (s : String) : String :=
  if pre.isPrefixOf s then
    match (s.drop pre.length).data with
    | c :: rest =>
        if c = ':' ∨ c = '：' then ⟨rest.dropWhile Char.isWhitespace⟩ else s
    | [] => s
  else s

/-- `_clean_merged_content` (fusion.py 312-324). -/
def cleanMergedContent (content : String) : String :=
  pyStripStr (stripHeadPat "最终版本" (stripHeadPat "合并后的内容"
    (stripHeadPat "整合后的内容" content)))

/-- `_deduplicate_markers` (fusion.py 326-337): first occurrence per
`time + "-" + description[:30]` key, capped at 5. -/
def deduplicateMarkers (markers : List (String × String)) : List (String × String) :=
  ((markers.foldl (fun (acc : List String × List (String × String)) m =>
    let key := m.1 ++ "-" ++ m.2.take 30
    if key ∈ acc.1 then acc else (acc.1 ++ [key], acc.2 ++ [m])) ([], [])).2).take 5

/-- `list(set(...))` modelled as first-occurrence dedup. -/
def dedupFirst (l : List String) : List String :=
  l.foldl (fun acc s => if s ∈ acc then acc else acc ++ [s]) []

/-- `_to_merged` (fusion.py 425-435). -/
def toMerged (p : KnowledgePoint) : MergedKnowledge :=
  { title := p.title, content := p.content, sources := [p.source_file],
    video_markers := p.video_markers, examples := extractExamples [p],
    confidence := 1, merged_from := 1 }

/-- `_merge_group` (fusion.py 252-310). -/
def mergeGroup (llmMerge : List KnowledgePoint → Option String)
    (points : List KnowledgePoint) (bestTitle : String) : MergedKnowledge :=
  match points with
  | [p] => toMerged p
  | _ =>
    let mergedContent := match llmMerge points with
      | some c => cleanMergedContent c
      | none => String.intercalate "\n\n" ((points.take 3).map (fun p => p.content))
    { title := bestTitle,
      content := mergedContent,
      sources := dedupFirst (points.map (fun p => p.source_file)),
      video_markers := deduplicateMarkers
        (points.foldl (fun acc p => acc ++ p.video_markers) []),
      examples := extractExamples points,
      confidence := min 1 (7/10 + points.length * (1/20)),
      merged_from := points.length }

/-- One iteration of the `for group in confirmed_groups` loop of
`_merge_all_groups`: `group_points = [points[i] for i in group.indices if
i < len(points)]`; groups with more than one surviving point are merged and
all their indices marked used; singleton survivors pass through `_to_merged`
and mark `group.indices[0]` used; empty survivors do nothing. -/
def mergeStep (llmMerge : List KnowledgePoint → Option String)
    (points : List KnowledgePoint)
    (acc : List MergedKnowledge × Finset Nat) (g : DuplicateGroup) :
    List MergedKnowledge × Finset Nat :=
  let groupPoints := g.indices.filterMap (fun i => points.get? i)
  if 1 < groupPoints.length then
    (acc.1 ++ [mergeGroup llmMerge groupPoints g.best_title],
      acc.2 ∪ g.indices.toFinset)
  else if groupPoints.length = 1 then
    (acc.1 ++ [toMerged (groupPoints.getD 0 default)],
      insert (g.indices.getD 0 0) acc.2)
  else acc

/-- `_merge_all_groups` (fusion.py 227-250): process every confirmed group,
then pass every unused fragment through `_to_merged` in index order. -/
def mergeAllGroups (llmMerge : List KnowledgePoint → Option String)
    (points : List KnowledgePoint) (confirmedGroups : List DuplicateGroup) :
    List MergedKnowledge :=
  let r := confirmedGroups.foldl (mergeStep llmMerge points) ([], ∅)
  r.1 ++ points.enum.filterMap (fun ip =>
    if ip.1 ∈ r.2 then none else some (toMerged ip.2))

end Fusion

namespace Fusion

theorem filterMap_get?_length (points : List KnowledgePoint) :
    ∀ idxs : List Nat, (∀ i ∈ idxs, i < points.length) →
      (idxs.filterMap (fun i => points.get? i)).length = idxs.length := by
  intro idxs
  induction idxs with
  | nil => intro _; rfl
  | cons i tl ih =>
      intro h
      have hi : i < points.length := h i (List.mem_cons_self i tl)
      have hsome : points.get? i = some points[i] := by
        rw [List.get?_eq_getElem?]
        exact List.getElem?_eq_getElem hi
      rw [List.filterMap_cons, hsome, List.length_cons,
        ih (fun j hj => h j (List.mem_cons_of_mem i hj))]
      rfl

theorem mergeGroup_merged_from (llm : List KnowledgePoint → Option String)
    (pts : List KnowledgePoint) (t : String) (h : 2 ≤ pts.length) :
    (mergeGroup llm pts t).merged_from = pts.length := by
  rcases pts with _ | ⟨a, _ | ⟨b, rest⟩⟩
  · simp at h
  · simp at h
  · rfl

theorem toMerged_merged_from (p : KnowledgePoint) :
    (toMerged p).merged_from = 1 := rfl

/-- Accounting invariant of the `for group in confirmed_groups` fold: the
`merged_from` mass added so far equals the growth of the used-index set. -/
theorem mergeFold_sum (llm : List KnowledgePoint → Option String)
    (points : List KnowledgePoint) :
    ∀ (cgs : List DuplicateGroup) (acc : List MergedKnowledge × Finset Nat),
      (∀ g ∈ cgs, ∀ i ∈ g.indices, i < points.length) →
      (∀ g ∈ cgs, g.indices.Nodup) →
      cgs.Pairwise (fun g1 g2 => ∀ i ∈ g1.indices, i ∉ g2.indices) →
      (∀ g ∈ cgs, ∀ i ∈ g.indices, i ∉ acc.2) →
      acc.2 ⊆ Finset.range points.length →
      (((cgs.foldl (mergeStep llm points) acc).1.map
            (fun m => m.merged_from)).sum + acc.2.card
        = (acc.1.map (fun m => m.merged_from)).sum
            + (cgs.foldl (mergeStep llm points) acc).2.card)
      ∧ (cgs.foldl (mergeStep llm points) acc).2 ⊆ Finset.range points.length := by
  intro cgs
  induction cgs with
  | nil => intro acc _ _ _ _ hsub; exact ⟨rfl, hsub⟩
  | cons g rest ih =>
      intro acc h1 h2 h3 hdisj hsub
      have h1g : ∀ i ∈ g.indices, i < points.length :=
        h1 g (List.mem_cons_self g rest)
      have h2g : g.indices.Nodup := h2 g (List.mem_cons_self g rest)
      have hdg : ∀ i ∈ g.indices, i ∉ acc.2 :=
        hdisj g (List.mem_cons_self g rest)
      have hpw := List.pairwise_cons.mp h3
      have hglen : (g.indices.filterMap (fun i => points.get? i)).length
          = g.indices.length := filterMap_get?_length points g.indices h1g
      rw [List.foldl_cons]
      -- the new accumulator
      set acc' := mergeStep llm points acc g with hacc'
      have haccsub : acc'.2 ⊆ Finset.range points.length ∧
          acc'.2 ⊆ acc.2 ∪ g.indices.toFinset ∧
          ((acc'.1.map (fun m => m.merged_from)).sum + acc.2.card
            = (acc.1.map (fun m => m.merged_from)).sum + acc'.2.card) := by
        rw [hacc', mergeStep]
        by_cases hc1 : 1 < (g.indices.filterMap (fun i => points.get? i)).length
        · rw [if_pos hc1]
          have hdisjoint : Disjoint acc.2 g.indices.toFinset := by
            rw [Finset.disjoint_right]
            intro a ha
            exact hdg a (List.mem_toFinset.mp ha)
          have hcard : (acc.2 ∪ g.indices.toFinset).card
              = acc.2.card + g.indices.length := by
            rw [Finset.card_union_of_disjoint hdisjoint,
              List.toFinset_card_of_nodup h2g]
          refine ⟨?_, Finset.Subset.refl _, ?_⟩
          · intro a ha
            rcases Finset.mem_union.mp ha with ha | ha
            · exact hsub ha
            · exact Finset.mem_range.mpr (h1g a (List.mem_toFinset.mp ha))
          · rw [List.map_append, List.sum_append]
            simp only [List.map_cons, List.map_nil, List.sum_cons, List.sum_nil]
            rw [mergeGroup_merged_from llm _ g.best_title (by omega), hglen, hcard]
            omega
        · rw [if_neg hc1]
          by_cases hc2 : (g.indices.filterMap (fun i => points.get? i)).length = 1
          · rw [if_pos hc2]
            have hLen1 : g.indices.length = 1 := by rw [← hglen]; exact hc2
            obtain ⟨i0, hi0⟩ := List.length_eq_one.mp hLen1
            have hgd : g.indices.getD 0 0 = i0 := by rw [hi0]; rfl
            have hi0mem : i0 ∈ g.indices := by rw [hi0]; exact List.mem_singleton.mpr rfl
            have hnotin : i0 ∉ acc.2 := hdg i0 hi0mem
            have hcard : (insert (g.indices.getD 0 0) acc.2).card = acc.2.card + 1 := by
              rw [hgd, Finset.card_insert_of_not_mem hnotin]
            refine ⟨?_, ?_, ?_⟩
            · intro a ha
              rcases Finset.mem_insert.mp ha with rfl | ha
              · rw [hgd] at ha ⊢
                exact Finset.mem_range.mpr (h1g _ hi0mem)
              · exact hsub ha
            · intro a ha
              rcases Finset.mem_insert.mp ha with rfl | ha
              · rw [hgd] at ha ⊢
                exact Finset.mem_union_right _ (List.mem_toFinset.mpr hi0mem)
              · exact Finset.mem_union_left _ ha
            · rw [List.map_append, List.sum_append]
              simp only [List.map_cons, List.map_nil, List.sum_cons, List.sum_nil,
                toMerged_merged_from, hcard]
              omega
          · rw [if_neg hc2]
            exact ⟨hsub, Finset.subset_union_left, rfl⟩
      obtain ⟨hs1, hs2, hs3⟩ := haccsub
      have ihres := ih acc'
        (fun g' hg' => h1 g' (List.mem_cons_of_mem g hg'))
        (fun g' hg' => h2 g' (List.mem_cons_of_mem g hg'))
        hpw.2
        (by
          intro g' hg' i hi
          intro hmem
          rcases Finset.mem_union.mp (hs2 hmem) with hin | hin
          · exact hdisj g' (List.mem_cons_of_mem g hg') i hi hin
          · exact hpw.1 g' hg' i (List.mem_toFinset.mp hin) hi)
        hs1
      exact ⟨by omega, ihres.2⟩

theorem length_filterMap_eq_countP {α β : Type} (f : α → Option β) :
    ∀ l : List α, (l.filterMap f).length = l.countP (fun a => (f a).isSome) := by
  intro l
  induction l with
  | nil => rfl
  | cons a tl ih =>
      rw [List.filterMap_cons, List.countP_cons]
      rcases hfa : f a with _ | b
      · simp [hfa, ih]
      · simp [hfa, ih]

theorem sum_map_merged_from_one (l : List MergedKnowledge)
    (h : ∀ m ∈ l, m.merged_from = 1) :
    (l.map (fun m => m.merged_from)).sum = l.length := by
  induction l with
  | nil => rfl
  | cons m tl ih =>
      rw [List.map_cons, List.sum_cons, h m (List.mem_cons_self m tl),
        List.length_cons, ih (fun x hx => h x (List.mem_cons_of_mem m hx))]
      omega

theorem range_filter_not_mem_card :
    ∀ (n : Nat) (used : Finset Nat), used ⊆ Finset.range n →
      ((List.range n).filter (fun i => decide (i ∉ used))).length + used.card = n := by
  intro n
  induction n with
  | zero =>
      intro used hsub
      have : used = ∅ := Finset.subset_empty.mp (by simpa using hsub)
      simp [this]
  | succ n ih =>
      intro used hsub
      rw [List.range_succ, List.filter_append]
      have herase : used.erase n ⊆ Finset.range n := by
        intro a ha
        have h1 := Finset.mem_of_mem_erase ha
        have h2 := Finset.ne_of_mem_erase ha
        have := Finset.mem_range.mp (hsub h1)
        exact Finset.mem_range.mpr (by omega)
      have hcongr : (List.range n).filter (fun i => decide (i ∉ used))
          = (List.range n).filter (fun i => decide (i ∉ used.erase n)) := by
        apply List.filter_congr
        intro i hi
        have hilt : i < n := List.mem_range.mp hi
        by_cases hiu : i ∈ used
        · have hie : i ∈ used.erase n := Finset.mem_erase.mpr ⟨by omega, hiu⟩
          simp [hiu, hie]
        · have hie : i ∉ used.erase n := fun hc => hiu (Finset.mem_of_mem_erase hc)
          simp [hiu, hie]
      by_cases hn : n ∈ used
      · have hcard : used.card = (used.erase n).card + 1 := by
          rw [Finset.card_erase_of_mem hn]
          have : 0 < used.card := Finset.card_pos.mpr ⟨n, hn⟩
          omega
        have hlast : ([n].filter (fun i => decide (i ∉ used))).length = 0 := by
          simp [hn]
        rw [List.length_append, hlast, hcongr, hcard]
        have := ih (used.erase n) herase
        omega
      · have herase' : used.erase n = used := Finset.erase_eq_of_not_mem hn
        have hlast : ([n].filter (fun i => decide (i ∉ used))).length = 1 := by
          simp [hn]
        rw [List.length_append, hlast, hcongr, herase']
        have := ih used (by rw [← herase']; exact herase)
        omega

end Fusion

/-- **C10.** For every fragment list of length N and every list of confirmed
duplicate groups that are pairwise-disjoint subsets of the index range (as the
prefilter's candidate groups are — `_confirm_duplicates` passes the index
lists through unchanged), `merge_duplicates`' merge phase conserves the input:
every fragment index contributes to exactly one output `MergedKnowledge`,
either inside the single group containing it or as a `merged_from = 1`
pass-through, so the `merged_from` counts over the output sum to N. -/
theorem c10_merge_conserves_fragments
    (llm : List Fusion.KnowledgePoint → Option String)
    (points : List Fusion.KnowledgePoint)
    (cgs : List Fusion.DuplicateGroup)
    (h1 : ∀ g ∈ cgs, ∀ i ∈ g.indices, i < points.length)
    (h2 : ∀ g ∈ cgs, g.indices.Nodup)
    (h3 : cgs.Pairwise (fun g1 g2 => ∀ i ∈ g1.indices, i ∉ g2.indices)) :
    ((Fusion.mergeAllGroups llm points cgs).map (fun m => m.merged_from)).sum
      = points.length := by
  obtain ⟨hsum, hsub⟩ := Fusion.mergeFold_sum llm points cgs ([], ∅) h1 h2 h3
    (by intro g _ i _; simp) (by simp)
  have hrepr : Fusion.mergeAllGroups llm points cgs
      = (cgs.foldl (Fusion.mergeStep llm points) ([], ∅)).1
        ++ points.enum.filterMap (fun ip =>
            if ip.1 ∈ (cgs.foldl (Fusion.mergeStep llm points) ([], ∅)).2 then none
            else some (Fusion.toMerged ip.2)) := rfl
  set F := cgs.foldl (Fusion.mergeStep llm points) ([], ∅) with hF
  rw [hrepr, List.map_append, List.sum_append]
  -- the fold part sums to the number of used indices
  have hfold : ((F.1.map (fun m => m.merged_from)).sum) = F.2.card := by
    simpa using hsum
  -- the pass-through part sums to its length, every entry having count 1
  have hpassones : ∀ m ∈ points.enum.filterMap (fun ip =>
      if ip.1 ∈ F.2 then none else some (Fusion.toMerged ip.2)),
      m.merged_from = 1 := by
    intro m hm
    obtain ⟨ip, _, hip⟩ := List.mem_filterMap.mp hm
    by_cases hc : ip.1 ∈ F.2
    · rw [if_pos hc] at hip; cases hip
    · rw [if_neg hc] at hip
      cases hip
      rfl
  have hpasssum := Fusion.sum_map_merged_from_one _ hpassones
  -- the pass-through length is the number of unused indices
  have hlen : (points.enum.filterMap (fun ip =>
      if ip.1 ∈ F.2 then none else some (Fusion.toMerged ip.2))).length
      = ((List.range points.length).filter (fun i => decide (i ∉ F.2))).length := by
    rw [Fusion.length_filterMap_eq_countP]
    have hcp : ∀ ip ∈ points.enum,
        (((if ip.1 ∈ F.2 then none else some (Fusion.toMerged ip.2)).isSome) = true)
          ↔ (decide (ip.1 ∉ F.2) = true) := by
      intro ip _
      by_cases hc : ip.1 ∈ F.2 <;> simp [hc]
    rw [List.countP_congr hcp]
    rw [List.countP_eq_length_filter]
    have henum : (List.range points.length).filter (fun i => decide (i ∉ F.2))
        = ((points.enum.map Prod.fst).filter (fun i => decide (i ∉ F.2))) := by
      rw [List.enum_map_fst]
    rw [henum, List.filter_map, List.length_map]
    rfl
  have hcount := Fusion.range_filter_not_mem_card points.length F.2 hsub
  rw [hfold, hpasssum, hlen]
  omega

/-- Witness for C10: three fragments, one confirmed group `[0, 1]`; the output
counts sum to 3. -/
theorem c10_merge_conserves_fragments_witness :
    ((Fusion.mergeAllGroups (fun _ => none)
        [⟨"a", "x", [], "s1", 3⟩, ⟨"a", "x", [], "s2", 3⟩, ⟨"b", "y", [], "s3", 3⟩]
        [⟨"a", [0, 1], [1, 1], "dup"⟩]).map (fun m => m.merged_from)).sum = 3 :=
  c10_merge_conserves_fragments (fun _ => none)
    [⟨"a", "x", [], "s1", 3⟩, ⟨"a", "x", [], "s2", 3⟩, ⟨"b", "y", [], "s3", 3⟩]
    [⟨"a", [0, 1], [1, 1], "dup"⟩]
    (by intro g hg i hi; simp at hg; subst hg; simp at hi; rcases hi with rfl | rfl <;> simp)
    (by intro g hg; simp at hg; subst hg; simp)
    (by simp)

namespace Pipeline

/-!
### `WorkflowEngine` (src/workflow.py 204-328)

Per-stage generative calls are modelled as functions of the data each prompt
is built from (the prompt templates are injective in that data):
`llmNoise` and `llmStructure` take the (truncated) working text, `llmVideo`
takes a fragment's title and content; `Except.error` is a raised exception of
`generate`.  `loads` is `json.loads` (`none` = `JSONDecodeError`), and
`findMarkers` is `re.findall` for the video-marker pattern.  Fragment titles
and contents are `Json` values, because `_stage_structure` stores whatever the
parsed reply contained; plain strings enter as `Json.str`.  File reading
(`doc_path.read_text`) is abstracted by passing the file's content.
-/

structure KnowledgePoint where
  title : Json
  content : Json
  video_markers : List (String × String) := []
  source_file : String := ""
  importance : Nat := 3

structure Document where
  path : String
  content : String
  knowledge_points : List KnowledgePoint := []

/-- `re.search(r"\x7b.*\x7d", result, re.DOTALL)` and `.group()`. -/
def braceSearch (s : String) : Option String :=
  (extractBraces s.data).map (fun cs => ⟨cs⟩)

/-- The body of the `for p in data.get("points", [])` comprehension:
`(p["title"], p["content"])` per element, with Python's failure modes —
`.get` on a non-dict raises `AttributeError`, iterating a non-iterable raises
`TypeError`, indexing a non-dict element or a dict element without the keys
raises `TypeError`/`KeyError`; iterating an empty string or empty dict yields
no elements.  `Except.error ()` is any such exception (caught by the stage's
`except`). -/
def extractPoints : Json → Except Unit (List (Json × Json))
  | Json.obj fields =>
      match Json.lookup fields "points" with
      | none => Except.ok []
      | some (Json.arr ps) =>
          ps.mapM (fun p => match p with
            | Json.obj pf =>
                match Json.lookup pf "title", Json.lookup pf "content" with
                | some t, some c => Except.ok (t, c)
                | _, _ => Except.error ()
            | _ => Except.error ())
      | some (Json.str s) => if s.isEmpty then Except.ok [] else Except.error ()
      | some (Json.obj f2) => if f2.isEmpty then Except.ok [] else Except.error ()
      | some _ => Except.error ()
  | _ => Except.error ()

/-- The fallback fragment of `_stage_structure`'s `except` branch:
`KnowledgePoint(title="内容", content=doc.content[:1000],
source_file=str(doc.path))`. -/
def fallbackPoint (doc : Document) : KnowledgePoint :=
  { title := Json.str "内容", content := Json.str (doc.content.take 1000),
    video_markers := [], source_file := doc.path, importance := 3 }

/-- `_stage_noise_reduction` (workflow.py 243-252): one generative call on the
first 4000 characters; the reply replaces the content verbatim; no
`try/except`, so a raised failure propagates. -/
def stageNoiseReduction (llmNoise : String → Except String String)
    (doc : Document) : Except String Document :=
  (llmNoise (doc.content.take 4000)).map (fun r => { doc with content := r })

/-- `_stage_structure` (workflow.py 254-296): generate, search for a
brace-delimited substring, parse it, build the fragments; the whole body is
wrapped in `try/except`, whose handler installs the single fallback fragment —
but when the regex finds no match, nothing is raised and nothing is assigned:
the fragment list stays as it was. -/
def stageStructure (llmStructure : String → Except String String)
    (loads : String → Option Json) (doc : Document) : Document :=
  match llmStructure (doc.content.take 3000) with
  | Except.error _ => { doc with knowledge_points := [fallbackPoint doc] }
  | Except.ok result =>
      match braceSearch result with
      | none => doc
      | some s =>
          match loads s with
          | none => { doc with knowledge_points := [fallbackPoint doc] }
          | some data =>
              match extractPoints data with
              | Except.error _ => { doc with knowledge_points := [fallbackPoint doc] }
              | Except.ok pts =>
                  { doc with knowledge_points := pts.map (fun tc =>
                      { title := tc.1, content := tc.2, video_markers := [],
                        source_file := doc.path, importance := 3 }) }

/-- `_stage_video_mark` (workflow.py 298-328): per-fragment generative call
inside `try/except`; on success the reply becomes the content and its marker
matches become the fragment's markers; on failure the fragment is left
untouched.  Never raises. -/
def stageVideoMark (llmVideo : Json → Json → Except String String)
    (findMarkers : String → List (String × String)) (doc : Document) : Document :=
  { doc with knowledge_points := doc.knowledge_points.map (fun p =>
      match llmVideo p.title p.content with
      | Except.ok marked =>
          { p with content := Json.str marked, video_markers := findMarkers marked }
      | Except.error _ => p) }

/-- `WorkflowEngine.process_document` (workflow.py 212-241): track, clean,
then stages 2-4 with a ledger update before each, `("done", "completed")` and
fragment persistence at the end.  There is no `try/except` here: a failure
raised by stage 2 leaves the function (and the ledger keeps the last written
status). -/
def processDocument (cleaner : String → String)
    (llmNoise llmStructure : String → Except String String)
    (llmVideo : Json → Json → Except String String)
    (loads : String → Option Json)
    (findMarkers : String → List (String × String))
    (tracker : Ledger.TrackerDB KnowledgePoint) (path content : String) :
    Ledger.TrackerDB KnowledgePoint × Except String Document :=
  let a := Ledger.addDocument tracker path
  let docId := a.1
  let doc : Document := { path := path, content := content }
  let t2 := Ledger.updateStatus a.2 docId "processing" (some "cleaning") none
  let doc := { doc with content := cleaner doc.content }
  let t3 := Ledger.updateStatus t2 docId "processing" (some "noise_reduction") none
  match stageNoiseReduction llmNoise doc with
  | Except.error e => (t3, Except.error e)
  | Except.ok doc =>
      let t4 := Ledger.updateStatus t3 docId "processing" (some "structuring") none
      let doc := stageStructure llmStructure loads doc
      let t5 := Ledger.updateStatus t4 docId "processing" (some "video_marking") none
      let doc := stageVideoMark llmVideo findMarkers doc
      let t6 := Ledger.updateStatus t5 docId "done" (some "completed") none
      let t7 := doc.knowledge_points.foldl
        (fun t p => Ledger.saveKnowledgePoint t docId p) t6
      (t7, Except.ok doc)

end Pipeline

namespace Ledger

theorem updateStatus_id_fields {κ : Type} (db : TrackerDB κ) (docId : Nat)
    (s : String) (st res : Option String) :
    ∀ r ∈ (updateStatus db docId s st res).rows, r.id = docId →
      r.status = s ∧ r.stage = st := by
  intro r hr hid
  rw [updateStatus] at hr
  obtain ⟨r0, hr0, hfr⟩ := List.mem_map.mp hr
  by_cases hc : r0.id = docId
  · rw [if_pos hc] at hfr
    rw [← hfr]
    exact ⟨rfl, rfl⟩
  · rw [if_neg hc] at hfr
    rw [← hfr] at hid
    exact absurd hid hc

theorem updateStatus_status_preserved {κ : Type} (db : TrackerDB κ) (docId : Nat)
    (s : String) (st res : Option String) (bad : String)
    (hdb : ∀ r ∈ db.rows, r.status ≠ bad) (hs : s ≠ bad) :
    ∀ r ∈ (updateStatus db docId s st res).rows, r.status ≠ bad := by
  intro r hr
  rw [updateStatus] at hr
  obtain ⟨r0, hr0, hfr⟩ := List.mem_map.mp hr
  by_cases hc : r0.id = docId
  · rw [if_pos hc] at hfr
    rw [← hfr]
    exact hs
  · rw [if_neg hc] at hfr
    rw [← hfr]
    exact hdb r0 hr0

theorem addDocument_status_preserved {κ : Type} (db : TrackerDB κ) (path : String)
    (bad : String) (hdb : ∀ r ∈ db.rows, r.status ≠ bad) (hp : "pending" ≠ bad) :
    ∀ r ∈ (addDocument db path).2.rows, r.status ≠ bad := by
  intro r hr
  rw [addDocument] at hr
  by_cases hc : db.rows.any (fun r => r.path = path)
  · rw [if_pos hc] at hr
    exact hdb r hr
  · rw [if_neg hc] at hr
    simp only at hr
    rcases List.mem_append.mp hr with h | h
    · exact hdb r h
    · have : r = ⟨maxId db.rows + 1, path, "pending", none, none⟩ := by simpa using h
      rw [this]
      exact hp

theorem foldl_save_rows {κ : Type} (docId : Nat) :
    ∀ (l : List κ) (db : TrackerDB κ),
      (l.foldl (fun t p => saveKnowledgePoint t docId p) db).rows = db.rows := by
  intro l
  induction l with
  | nil => intro db; rfl
  | cons p tl ih =>
      intro db
      rw [List.foldl_cons, ih]
      rfl

end Ledger

/-- **C1 counterexample.** With a generative service that raises in stage 2
(condense / `noise_reduction`), `process_document` does not catch the failure:
the error propagates out, nothing is recorded as `"failed"`, and the ledger
row is left at `status="processing"`, `stage="noise_reduction"`. -/
theorem c1_stage2_failure_propagates :
    (Pipeline.processDocument (fun s => s) (fun _ => Except.error "boom")
        (fun _ => Except.error "") (fun _ _ => Except.error "") (fun _ => none)
        (fun _ => []) ⟨[], []⟩ "a.srt" "x").2 = Except.error "boom"
    ∧ (Pipeline.processDocument (fun s => s) (fun _ => Except.error "boom")
        (fun _ => Except.error "") (fun _ _ => Except.error "") (fun _ => none)
        (fun _ => []) ⟨[], []⟩ "a.srt" "x").1.rows
      = [⟨1, "a.srt", "processing", some "noise_reduction", none⟩] :=
  ⟨rfl, rfl⟩

/-- **C1 amended.** `process_document` never writes `status="failed"` for any
document (no code path does): starting from a ledger without `"failed"` rows,
the final ledger has none either; and whenever the pipeline run returns an
error (a stage-2 failure — stages 3 and 4 catch their own exceptions), the
document's row is left at `status="processing"` with stage label
`"noise_reduction"`, and the exception propagates to the caller
(`ParallelProcessor`, which only omits the document from its result list and
does not update the ledger). -/
theorem c1_unhandled_failure_leaves_processing
    (cleaner : String → String)
    (llmNoise llmStructure : String → Except String String)
    (llmVideo : Json → Json → Except String String)
    (loads : String → Option Json)
    (findMarkers : String → List (String × String))
    (tracker : Ledger.TrackerDB Pipeline.KnowledgePoint) (path content : String)
    (hclean : ∀ r ∈ tracker.rows, r.status ≠ "failed") :
    (∀ r ∈ (Pipeline.processDocument cleaner llmNoise llmStructure llmVideo
        loads findMarkers tracker path content).1.rows, r.status ≠ "failed")
    ∧ (∀ e, (Pipeline.processDocument cleaner llmNoise llmStructure llmVideo
          loads findMarkers tracker path content).2 = Except.error e →
        ∀ r ∈ (Pipeline.processDocument cleaner llmNoise llmStructure llmVideo
            loads findMarkers tracker path content).1.rows,
          r.id = (Ledger.addDocument tracker path).1 →
            r.status = "processing" ∧ r.stage = some "noise_reduction") := by
  have hne : ("pending" : String) ≠ "failed" := by decide
  have hpr : ("processing" : String) ≠ "failed" := by decide
  have hdn : ("done" : String) ≠ "failed" := by decide
  rw [Pipeline.processDocument]
  set a := Ledger.addDocument tracker path with ha
  have h0 : ∀ r ∈ a.2.rows, r.status ≠ "failed" :=
    Ledger.addDocument_status_preserved tracker path "failed" hclean hne
  set t2 := Ledger.updateStatus a.2 a.1 "processing" (some "cleaning") none with ht2
  have h2 : ∀ r ∈ t2.rows, r.status ≠ "failed" :=
    Ledger.updateStatus_status_preserved _ _ _ _ _ _ h0 hpr
  set t3 := Ledger.updateStatus t2 a.1 "processing" (some "noise_reduction") none with ht3
  have h3 : ∀ r ∈ t3.rows, r.status ≠ "failed" :=
    Ledger.updateStatus_status_preserved _ _ _ _ _ _ h2 hpr
  rcases hstage2 : Pipeline.stageNoiseReduction llmNoise
      { path := path, content := cleaner content, knowledge_points := [] } with e | doc2
  · simp only [hstage2]
    refine ⟨h3, ?_⟩
    intro e' _ r hr hid
    exact Ledger.updateStatus_id_fields t2 a.1 "processing" (some "noise_reduction")
      none r hr hid
  · simp only [hstage2]
    set t4 := Ledger.updateStatus t3 a.1 "processing" (some "structuring") none with ht4
    have h4 : ∀ r ∈ t4.rows, r.status ≠ "failed" :=
      Ledger.updateStatus_status_preserved _ _ _ _ _ _ h3 hpr
    set t5 := Ledger.updateStatus t4 a.1 "processing" (some "video_marking") none with ht5
    have h5 : ∀ r ∈ t5.rows, r.status ≠ "failed" :=
      Ledger.updateStatus_status_preserved _ _ _ _ _ _ h4 hpr
    set t6 := Ledger.updateStatus t5 a.1 "done" (some "completed") none with ht6
    have h6 : ∀ r ∈ t6.rows, r.status ≠ "failed" :=
      Ledger.updateStatus_status_preserved _ _ _ _ _ _ h5 hdn
    constructor
    · intro r hr
      rw [Ledger.foldl_save_rows] at hr
      exact h6 r hr
    · intro e he
      simp at he

/-- Witness for C1's amended theorem at a concrete run: the one ledger row
produced by the failing run is not `"failed"`. -/
theorem c1_unhandled_failure_leaves_processing_witness :
    (⟨1, "a.srt", "processing", some "noise_reduction", none⟩ : Ledger.DocRow).status
      ≠ "failed" :=
  (c1_unhandled_failure_leaves_processing (fun s => s) (fun _ => Except.error "boom")
      (fun _ => Except.error "") (fun _ _ => Except.error "") (fun _ => none)
      (fun _ => []) ⟨[], []⟩ "a.srt" "x" (by intro r hr; simp at hr)).1
    ⟨1, "a.srt", "processing", some "noise_reduction", none⟩ (by
      rw [c1_stage2_failure_propagates.2]
      exact List.mem_singleton.mpr rfl)

/-- **C5 counterexample.** A generative reply with no brace-delimited
substring (`"no json here"`) raises nothing in `_stage_structure`: the
`if json_match:` guard is simply skipped, no fallback fragment is installed,
and a fresh document leaves the stage with zero fragments. -/
theorem c5_no_brace_leaves_zero_fragments :
    (Pipeline.stageStructure (fun _ => Except.ok "no json here") (fun _ => none)
        { path := "a.srt", content := "abc", knowledge_points := [] }).knowledge_points
      = [] := rfl

/-- **C5 amended.** `_stage_structure` degrades to exactly one fallback
fragment — whose content is `doc.content[:1000]`, a truncated prefix of the
condensed text — precisely when an exception is raised: the generative call
fails, or the brace-delimited substring is not valid JSON, or the parsed value
has the wrong shape (no dict, bad `points` entries).  When the reply contains
no brace-delimited substring at all, the stage returns the document unchanged
(zero fragments for a fresh document); and when parsing succeeds the fragment
list is exactly the parsed `points` (so an empty `points` list also yields
zero fragments). -/
theorem c5_structure_degrade_on_exception
    (llmS : String → Except String String) (loads : String → Option Json)
    (doc : Pipeline.Document) :
    (∀ e, llmS (doc.content.take 3000) = Except.error e →
      Pipeline.stageStructure llmS loads doc
        = { doc with knowledge_points := [Pipeline.fallbackPoint doc] })
    ∧ (∀ r, llmS (doc.content.take 3000) = Except.ok r →
        Pipeline.braceSearch r = none →
        Pipeline.stageStructure llmS loads doc = doc)
    ∧ (∀ r s, llmS (doc.content.take 3000) = Except.ok r →
        Pipeline.braceSearch r = some s → loads s = none →
        Pipeline.stageStructure llmS loads doc
          = { doc with knowledge_points := [Pipeline.fallbackPoint doc] })
    ∧ (∀ r s j, llmS (doc.content.take 3000) = Except.ok r →
        Pipeline.braceSearch r = some s → loads s = some j →
        Pipeline.extractPoints j = Except.error () →
        Pipeline.stageStructure llmS loads doc
          = { doc with knowledge_points := [Pipeline.fallbackPoint doc] })
    ∧ (∀ r s j pts, llmS (doc.content.take 3000) = Except.ok r →
        Pipeline.braceSearch r = some s → loads s = some j →
        Pipeline.extractPoints j = Except.ok pts →
        (Pipeline.stageStructure llmS loads doc).knowledge_points
          = pts.map (fun tc =>
              { title := tc.1, content := tc.2, video_markers := [],
                source_file := doc.path, importance := 3 })) := by
  refine ⟨?_, ?_, ?_, ?_, ?_⟩
  · intro e he
    simp only [Pipeline.stageStructure, he]
  · intro r hr hb
    simp only [Pipeline.stageStructure, hr, hb]
  · intro r s hr hb hl
    simp only [Pipeline.stageStructure, hr, hb, hl]
  · intro r s j hr hb hl hx
    simp only [Pipeline.stageStructure, hr, hb, hl, hx]
  · intro r s j pts hr hb hl hx
    simp only [Pipeline.stageStructure, hr, hb, hl, hx]

/-- Witness for C5's amended theorem: a raising generative call on a concrete
document produces exactly the single truncated-prefix fallback fragment. -/
theorem c5_structure_degrade_on_exception_witness :
    Pipeline.stageStructure (fun _ => Except.error "down") (fun _ => none)
        { path := "a.srt", content := "abc", knowledge_points := [] }
      = { path := "a.srt", content := "abc",
          knowledge_points := [Pipeline.fallbackPoint
            { path := "a.srt", content := "abc", knowledge_points := [] }] } :=
  (c5_structure_degrade_on_exception (fun _ => Except.error "down") (fun _ => none)
      { path := "a.srt", content := "abc", knowledge_points := [] }).1 "down" rfl

/-- **C7 counterexample.** The similarity scorer is not symmetric, because
`difflib.SequenceMatcher.ratio` depends on its argument order: for the titles
`"ab"` and `"bacb"` (with empty contents) the matcher finds 2 matching
characters one way and only 1 the other way, so
`sim = 0.6·(2/3) + 0.4·1 = 0.8` against `0.6·(1/3) + 0.4·1 = 0.6`.
(Python: `SequenceMatcher(None,"ab","bacb").ratio() = 0.666…` but
`SequenceMatcher(None,"bacb","ab").ratio() = 0.333…`.) -/
theorem c7_similarity_not_symmetric :
    Fusion.calculateSimilarity ⟨"ab", "", [], "", 3⟩ ⟨"bacb", "", [], "", 3⟩
      ≠ Fusion.calculateSimilarity ⟨"bacb", "", [], "", 3⟩ ⟨"ab", "", [], "", 3⟩ := by
  have h1 : Difflib.ratioOf (Fusion.lowerChars "ab".data)
      (Fusion.lowerChars "bacb".data) = mkRat 2 3 := by decide
  have h2 : Difflib.ratioOf (Fusion.lowerChars "bacb".data)
      (Fusion.lowerChars "ab".data) = mkRat 1 3 := by decide
  have h3 : Difflib.ratioOf (Fusion.lowerChars ("".data.take 200))
      (Fusion.lowerChars ("".data.take 200)) = 1 := by decide
  rw [Fusion.calculateSimilarity, Fusion.calculateSimilarity]
  rw [h1, h2, h3]
  rw [Rat.mkRat_eq_div, Rat.mkRat_eq_div]
  norm_num

namespace Difflib

/-!
#### Well-formedness of `find_longest_match` and the `ratio` bounds

`BestWF` says the candidate block lies inside the rectangle; it is maintained
by the scan (via a bound on the `j2len` values) and by the extension loops,
and gives `matchTotal ≤ min-side`, hence `0 ≤ ratio ≤ 1`.
-/

def BestWF (alo ahi blo bhi : Nat) (st : Nat × Nat × Nat) : Prop :=
  alo ≤ st.1 ∧ st.1 + st.2.2 ≤ ahi ∧ blo ≤ st.2.1 ∧ st.2.1 + st.2.2 ≤ bhi

/-- Bound on a `j2len` row: values at most `p` (the number of processed rows),
and a positive value at `x` forces `blo ≤ x` and the value at most
`x + 1 - blo`. -/
def RowBound (blo p : Nat) (f : Nat → Nat) : Prop :=
  ∀ x, f x ≤ p ∧ (0 < f x → blo ≤ x ∧ f x ≤ x + 1 - blo)

theorem innerFold_wf (a b : List Char) (alo ahi blo bhi : Nat) (f : Nat → Nat)
    (i p : Nat) (hf : RowBound blo p f) (hip : alo + p ≤ i) (hi : i < ahi) :
    ∀ (js : List Nat) (st : (Nat → Nat) × (Nat × Nat × Nat)),
      (∀ j ∈ js, blo ≤ j ∧ j < bhi) →
      RowBound blo (p + 1) st.1 → BestWF alo ahi blo bhi st.2 →
      RowBound blo (p + 1) (js.foldl (innerStep f i) st).1
        ∧ BestWF alo ahi blo bhi (js.foldl (innerStep f i) st).2 := by
  intro js
  induction js with
  | nil => intro st _ h1 h2; exact ⟨h1, h2⟩
  | cons j rest ih =>
      intro st hjs h1 h2
      rw [List.foldl_cons]
      have hj := hjs j (List.mem_cons_self j rest)
      have hrest : ∀ j' ∈ rest, blo ≤ j' ∧ j' < bhi :=
        fun j' hj' => hjs j' (List.mem_cons_of_mem j hj')
      -- properties of the one step
      have hk : (if j = 0 then 0 else f (j - 1)) + 1 ≤ p + 1
          ∧ (if j = 0 then 0 else f (j - 1)) + 1 ≤ j + 1 - blo := by
        constructor
        · by_cases hj0 : j = 0
          · simp [hj0]
          · rw [if_neg hj0]
            have := (hf (j - 1)).1
            omega
        · by_cases hj0 : j = 0
          · rw [if_pos hj0]
            subst hj0
            omega
          · rw [if_neg hj0]
            by_cases hpos : 0 < f (j - 1)
            · have := (hf (j - 1)).2 hpos
              omega
            · have : f (j - 1) = 0 := by omega
              rw [this]
              omega
      apply ih
      · exact hrest
      · -- the overridden j2len row keeps the bound
        intro x
        rw [innerStep]
        by_cases hc : st.2.2.2 < (if j = 0 then 0 else f (j - 1)) + 1
        · rw [if_pos hc]
          simp only
          by_cases hx : x = j
          · rw [if_pos hx]
            refine ⟨hk.1, fun _ => ⟨?_, ?_⟩⟩
            · rw [hx]; exact hj.1
            · rw [hx]; exact hk.2
          · rw [if_neg hx]; exact h1 x
        · rw [if_neg hc]
          simp only
          by_cases hx : x = j
          · rw [if_pos hx]
            refine ⟨hk.1, fun _ => ⟨?_, ?_⟩⟩
            · rw [hx]; exact hj.1
            · rw [hx]; exact hk.2
          · rw [if_neg hx]; exact h1 x
      · -- the best stays well-formed
        rw [innerStep]
        by_cases hc : st.2.2.2 < (if j = 0 then 0 else f (j - 1)) + 1
        · rw [if_pos hc]
          refine ⟨?_, ?_, ?_, ?_⟩ <;>
            · simp only
              omega
        · rw [if_neg hc]
          exact h2

theorem rowStep_wf (a b : List Char) (alo ahi blo bhi : Nat) (p i : Nat)
    (st : (Nat → Nat) × (Nat × Nat × Nat))
    (hf : RowBound blo p st.1) (hb : BestWF alo ahi blo bhi st.2)
    (hip : alo + p ≤ i) (hi : i < ahi) :
    RowBound blo (p + 1) (rowStep a b blo bhi st i).1
      ∧ BestWF alo ahi blo bhi (rowStep a b blo bhi st i).2 := by
  rw [rowStep]
  apply innerFold_wf a b alo ahi blo bhi st.1 i p hf hip hi
  · intro j hj
    have := List.mem_filter.mp hj
    have hp := this.2
    simp only [decide_eq_true_eq] at hp
    exact hp
  · intro x
    dsimp only
    exact ⟨by omega, by intro h; simp at h⟩
  · exact hb

theorem rowsFold_wf (a b : List Char) (alo ahi blo bhi : Nat) :
    ∀ (Δ t0 p : Nat) (st : (Nat → Nat) × (Nat × Nat × Nat)),
      RowBound blo p st.1 → BestWF alo ahi blo bhi st.2 →
      alo + p ≤ t0 → t0 + Δ ≤ ahi →
      BestWF alo ahi blo bhi
        ((((List.range Δ).map (fun t => t0 + t)).foldl (rowStep a b blo bhi) st).2) := by
  intro Δ
  induction Δ with
  | zero => intro t0 p st _ hb _ _; exact hb
  | succ Δ ih =>
      intro t0 p st hf hb ht0 hΔ
      rw [List.range_succ_eq_map, List.map_cons, List.map_map, List.foldl_cons]
      have hmap : (List.range Δ).map ((fun t => t0 + t) ∘ Nat.succ)
          = (List.range Δ).map (fun t => (t0 + 1) + t) := by
        apply List.map_congr_left
        intro x _
        simp [Function.comp]
        omega
      rw [hmap]
      have hrow := rowStep_wf a b alo ahi blo bhi p t0 st hf hb ht0 (by omega)
      exact ih (t0 + 1) (p + 1) _ hrow.1 hrow.2 (by omega) (by omega)

theorem scanBest_wf (a b : List Char) (alo ahi blo bhi : Nat)
    (h1 : alo ≤ ahi) (h2 : blo ≤ bhi) :
    BestWF alo ahi blo bhi (scanBest a b alo ahi blo bhi) := by
  rw [scanBest]
  have := rowsFold_wf a b alo ahi blo bhi (ahi - alo) alo 0
    ((fun _ => 0), (alo, blo, 0))
    (fun x => ⟨Nat.le_refl 0, by intro h; simp at h⟩)
    ⟨Nat.le_refl alo, by simpa using h1, Nat.le_refl blo, by simpa using h2⟩
    (by omega) (by omega)
  have hmap : (List.range (ahi - alo)).map (fun t => alo + t)
      = (List.range (ahi - alo)).map (fun t => alo + t) := rfl
  exact this

theorem extendFront_wf (a b : List Char) (alo blo ahi bhi : Nat)
    (keep : Char → Bool) :
    ∀ (fuel : Nat) (st : Nat × Nat × Nat), BestWF alo ahi blo bhi st →
      BestWF alo ahi blo bhi (extendFront a b alo blo keep fuel st) := by
  intro fuel
  induction fuel with
  | zero => intro st h; exact h
  | succ fuel ih =>
      intro st h
      obtain ⟨bi, bj, bk⟩ := st
      rw [extendFront]
      by_cases hc : alo < bi ∧ blo < bj
          ∧ keepAt b keep (bj - 1) = true ∧ matchAt a b (bi - 1) (bj - 1) = true
      · rw [if_pos hc]
        apply ih
        obtain ⟨w1, w2, w3, w4⟩ := h
        dsimp only at w1 w2 w3 w4
        refine ⟨?_, ?_, ?_, ?_⟩ <;> dsimp only <;> omega
      · rw [if_neg hc]
        exact h

theorem extendBack_wf (a b : List Char) (alo blo ahi bhi : Nat)
    (keep : Char → Bool) :
    ∀ (fuel : Nat) (st : Nat × Nat × Nat), BestWF alo ahi blo bhi st →
      BestWF alo ahi blo bhi (extendBack a b ahi bhi keep fuel st) := by
  intro fuel
  induction fuel with
  | zero => intro st h; exact h
  | succ fuel ih =>
      intro st h
      obtain ⟨bi, bj, bk⟩ := st
      rw [extendBack]
      by_cases hc : bi + bk < ahi ∧ bj + bk < bhi
          ∧ keepAt b keep (bj + bk) = true ∧ matchAt a b (bi + bk) (bj + bk) = true
      · rw [if_pos hc]
        apply ih
        obtain ⟨w1, w2, w3, w4⟩ := h
        dsimp only at w1 w2 w3 w4
        refine ⟨?_, ?_, ?_, ?_⟩ <;> dsimp only <;> omega
      · rw [if_neg hc]
        exact h

theorem findLongestMatch_wf (a b : List Char) (alo ahi blo bhi : Nat)
    (h1 : alo ≤ ahi) (h2 : blo ≤ bhi) :
    BestWF alo ahi blo bhi (findLongestMatch a b alo ahi blo bhi) := by
  rw [findLongestMatch]
  apply extendBack_wf
  apply extendFront_wf
  apply extendBack_wf
  apply extendFront_wf
  exact scanBest_wf a b alo ahi blo bhi h1 h2

theorem matchTotal_le (a b : List Char) :
    ∀ (fuel alo ahi blo bhi : Nat), alo ≤ ahi → blo ≤ bhi →
      matchTotal a b fuel (alo, ahi, blo, bhi) ≤ ahi - alo
        ∧ matchTotal a b fuel (alo, ahi, blo, bhi) ≤ bhi - blo := by
  intro fuel
  induction fuel with
  | zero => intro alo ahi blo bhi _ _; exact ⟨Nat.zero_le _, Nat.zero_le _⟩
  | succ fuel ih =>
      intro alo ahi blo bhi h1 h2
      have hwf := findLongestMatch_wf a b alo ahi blo bhi h1 h2
      rw [matchTotal]
      rcases hr : findLongestMatch a b alo ahi blo bhi with ⟨i, j, k⟩
      rw [hr] at hwf
      obtain ⟨w1, w2, w3, w4⟩ := hwf
      dsimp only at w1 w2 w3 w4 ⊢
      by_cases hk : k = 0
      · rw [if_pos hk]
        exact ⟨Nat.zero_le _, Nat.zero_le _⟩
      · rw [if_neg hk]
        have hleft := ih alo i blo j (by omega) (by omega)
        have hright := ih (i + k) ahi (j + k) bhi (by omega) (by omega)
        exact ⟨by omega, by omega⟩

theorem mkRat_twoM_nonneg (m t : Nat) : 0 ≤ mkRat (2 * (m : Int)) t := by
  rw [Rat.mkRat_eq_div]
  positivity

theorem mkRat_twoM_le_one (m t : Nat) (h : 2 * m ≤ t) :
    mkRat (2 * (m : Int)) t ≤ 1 := by
  by_cases ht : t = 0
  · subst ht
    rw [mkRat]
    simp
  · rw [Rat.mkRat_eq_div]
    rw [div_le_one (by positivity)]
    push_cast
    exact_mod_cast h

theorem ratioOf_nonneg (a b : List Char) : 0 ≤ ratioOf a b := by
  rw [ratioOf]
  split
  · norm_num
  · exact mkRat_twoM_nonneg _ _

theorem ratioOf_le_one (a b : List Char) : ratioOf a b ≤ 1 := by
  rw [ratioOf]
  split
  · exact le_refl 1
  · apply mkRat_twoM_le_one
    have hM := matchTotal_le a b (a.length + b.length + 1) 0 a.length 0 b.length
      (Nat.zero_le _) (Nat.zero_le _)
    omega

/-!
#### Reflexivity of `ratio` on identical sequences

For `a = b = s` the scan's best block always lies on the diagonal: the `j2len`
row values are the chain lengths `chainM`, any off-diagonal chain is dominated
by the diagonal chain of either endpoint, and the first maximal value the scan
meets is therefore a diagonal one (earlier rows via the `j`-endpoint, the same
row's later `j`s via the `i`-endpoint, scanned in ascending `j`).  The
extension loops then widen a diagonal block over equal elements to the whole
string, so `find_longest_match` returns `(0, 0, n)` and `ratio(s, s) = 1` —
autojunk included (a junked character yields an empty occurrence row, which
only makes the scan's best smaller; the extension loops ignore junk because
`isjunk=None` leaves the junk set empty).
-/

/-- The matching-chain length ending at `(i, j)` for `a = b = s`: the value
`j2len[j]` holds after the scan's row `i`. -/
def chainM (s : List Char) : Nat → Nat → Nat
  | 0, j => if j ∈ b2j s (s.getD 0 ' ') then 1 else 0
  | i + 1, j =>
      if j ∈ b2j s (s.getD (i + 1) ' ') then
        (match j with
         | 0 => 1
         | j' + 1 => chainM s i j' + 1)
      else 0

/-- The `j2len` function available when row `i` starts. -/
def prevRow (s : List Char) : Nat → Nat → Nat
  | 0 => fun _ => 0
  | i + 1 => chainM s i

theorem mem_b2j_lt (s : List Char) (c : Char) (j : Nat) (h : j ∈ b2j s c) :
    j < s.length := by
  rw [b2j] at h
  by_cases hp : 200 ≤ s.length ∧ s.length / 100 + 1 < s.count c
  · rw [if_pos hp] at h; simp at h
  · rw [if_neg hp] at h
    exact List.mem_range.mp (List.mem_filter.mp h).1

theorem mem_b2j_char (s : List Char) (c : Char) (j : Nat) (h : j ∈ b2j s c) :
    s.getD j ' ' = c := by
  rw [b2j] at h
  by_cases hp : 200 ≤ s.length ∧ s.length / 100 + 1 < s.count c
  · rw [if_pos hp] at h; simp at h
  · rw [if_neg hp] at h
    have := (List.mem_filter.mp h).2
    simpa using this

/-- Any occupant of an occurrence row certifies that the row's character is
not junked, so every position holding the same character — in particular the
occupant itself and the row index — is in the row too. -/
theorem mem_b2j_self (s : List Char) (c : Char) (j x : Nat) (h : j ∈ b2j s c)
    (hx : x < s.length) (hcx : s.getD x ' ' = c) : x ∈ b2j s c := by
  rw [b2j] at h ⊢
  by_cases hp : 200 ≤ s.length ∧ s.length / 100 + 1 < s.count c
  · rw [if_pos hp] at h; simp at h
  · rw [if_neg hp] at h ⊢
    refine List.mem_filter.mpr ⟨List.mem_range.mpr hx, by simpa using hcx⟩

theorem b2j_congr (s : List Char) (c c' : Char) (h : c = c') :
    b2j s c = b2j s c' := by rw [h]

theorem chainM_zero_eq (s : List Char) (j : Nat) :
    chainM s 0 j = if j ∈ b2j s (s.getD 0 ' ') then 1 else 0 := rfl

theorem chainM_succ_zero_eq (s : List Char) (i : Nat) :
    chainM s (i + 1) 0 = if 0 ∈ b2j s (s.getD (i + 1) ' ') then 1 else 0 := rfl

theorem chainM_succ_succ_eq (s : List Char) (i j : Nat) :
    chainM s (i + 1) (j + 1)
      = if (j + 1) ∈ b2j s (s.getD (i + 1) ' ') then chainM s i j + 1 else 0 := rfl

theorem chainM_of_not_mem (s : List Char) (i j : Nat)
    (h : j ∉ b2j s (s.getD i ' ')) : chainM s i j = 0 := by
  cases i with
  | zero => rw [chainM_zero_eq, if_neg h]
  | succ i =>
      cases j with
      | zero => rw [chainM_succ_zero_eq, if_neg h]
      | succ j => rw [chainM_succ_succ_eq, if_neg h]

theorem chainM_pos_mem (s : List Char) (i j : Nat) (h : 0 < chainM s i j) :
    j ∈ b2j s (s.getD i ' ') := by
  by_cases hm : j ∈ b2j s (s.getD i ' ')
  · exact hm
  · rw [chainM_of_not_mem s i j hm] at h; omega

/-- Diagonal chain below an occupied cell: `chainM s j j ≥ 1` when some row
contains `j`. -/
theorem chainM_diag_pos (s : List Char) (c : Char) (j : Nat)
    (h : j ∈ b2j s c) : 0 < chainM s j j := by
  have hj := mem_b2j_lt s c j h
  have hc := mem_b2j_char s c j h
  have hmem : j ∈ b2j s (s.getD j ' ') := by
    rw [b2j_congr s (s.getD j ' ') c hc]
    exact mem_b2j_self s c j j h hj hc
  cases j with
  | zero => rw [chainM_zero_eq, if_pos hmem]; omega
  | succ j' => rw [chainM_succ_succ_eq, if_pos hmem]; omega

/-- The chain ending at `(i, j)` is dominated by the diagonal chain at `j`. -/
theorem chainM_le_diag_right (s : List Char) :
    ∀ i j, chainM s i j ≤ chainM s j j := by
  intro i
  induction i with
  | zero =>
      intro j
      by_cases hm : j ∈ b2j s (s.getD 0 ' ')
      · rw [chainM_zero_eq, if_pos hm]
        exact chainM_diag_pos s _ j hm
      · rw [chainM_zero_eq, if_neg hm]
        omega
  | succ i ih =>
      intro j
      by_cases hm : j ∈ b2j s (s.getD (i + 1) ' ')
      · cases j with
        | zero =>
            rw [chainM_succ_zero_eq, if_pos hm]
            exact chainM_diag_pos s _ 0 hm
        | succ j' =>
            rw [chainM_succ_succ_eq, if_pos hm]
            have hmemd : (j' + 1) ∈ b2j s (s.getD (j' + 1) ' ') := by
              have hj := mem_b2j_lt s _ _ hm
              have hc := mem_b2j_char s _ _ hm
              rw [b2j_congr s (s.getD (j' + 1) ' ') (s.getD (i + 1) ' ') hc]
              exact mem_b2j_self s _ _ _ hm hj hc
            rw [chainM_succ_succ_eq, if_pos hmemd]
            have := ih j'
            omega
      · rw [chainM_of_not_mem s _ _ hm]
        omega

/-- The chain ending at `(i, j)` is dominated by the diagonal chain at `i`
(for a genuine row `i < n`). -/
theorem chainM_le_diag_left (s : List Char) :
    ∀ i j, i < s.length → chainM s i j ≤ chainM s i i := by
  intro i
  induction i with
  | zero =>
      intro j hi
      by_cases hm : j ∈ b2j s (s.getD 0 ' ')
      · rw [chainM_zero_eq, if_pos hm]
        have hmem0 : 0 ∈ b2j s (s.getD 0 ' ') :=
          mem_b2j_self s _ j 0 hm hi rfl
        rw [chainM_zero_eq, if_pos hmem0]
      · rw [chainM_zero_eq, if_neg hm]
        omega
  | succ i ih =>
      intro j hi
      by_cases hm : j ∈ b2j s (s.getD (i + 1) ' ')
      · have hmemd : (i + 1) ∈ b2j s (s.getD (i + 1) ' ') :=
          mem_b2j_self s _ j (i + 1) hm hi rfl
        cases j with
        | zero =>
            rw [chainM_succ_zero_eq, if_pos hm]
            rw [chainM_succ_succ_eq, if_pos hmemd]
            omega
        | succ j' =>
            rw [chainM_succ_succ_eq, if_pos hm]
            rw [chainM_succ_succ_eq, if_pos hmemd]
            have := ih j' (by omega)
            omega
      · rw [chainM_of_not_mem s _ _ hm]
        omega

/-- Linking the scan's `k` computation to `chainM`: for an occupant `j` of
row `i`'s occurrence list, `k = j2len_prev.get(j-1, 0) + 1 = chainM s i j`. -/
theorem chainM_eq_k (s : List Char) (i j : Nat)
    (h : j ∈ b2j s (s.getD i ' ')) :
    chainM s i j = (if j = 0 then 0 else prevRow s i (j - 1)) + 1 := by
  cases i with
  | zero =>
      rw [chainM_zero_eq, if_pos h]
      cases j with
      | zero => rfl
      | succ j' => rfl
  | succ i =>
      cases j with
      | zero =>
          rw [chainM_succ_zero_eq, if_pos h]
          rfl
      | succ j' =>
          rw [chainM_succ_succ_eq, if_pos h]
          rw [if_neg (by omega : ¬(j' + 1 = 0))]
          rfl

/-- `innerStep` always writes `k` at index `j` in the row being built. -/
theorem innerStep_fst (f : Nat → Nat) (i : Nat)
    (st : (Nat → Nat) × (Nat × Nat × Nat)) (j x : Nat) :
    (innerStep f i st j).1 x
      = if x = j then (if j = 0 then 0 else f (j - 1)) + 1 else st.1 x := by
  rw [innerStep]
  by_cases hc : st.2.2.2 < (if j = 0 then 0 else f (j - 1)) + 1
  · rw [if_pos hc]
  · rw [if_neg hc]

/-- The best-block component of one inner step. -/
def bestStep (f : Nat → Nat) (i : Nat) (bst : Nat × Nat × Nat) (j : Nat) :
    Nat × Nat × Nat :=
  let k := (if j = 0 then 0 else f (j - 1)) + 1
  if bst.2.2 < k then (i + 1 - k, j + 1 - k, k) else bst

theorem innerStep_snd (f : Nat → Nat) (i : Nat)
    (st : (Nat → Nat) × (Nat × Nat × Nat)) (j : Nat) :
    (innerStep f i st j).2 = bestStep f i st.2 j := by
  rw [innerStep, bestStep]
  by_cases hc : st.2.2.2 < (if j = 0 then 0 else f (j - 1)) + 1
  · rw [if_pos hc, if_pos hc]
  · rw [if_neg hc, if_neg hc]

/-- The inner fold builds the row pointwise (later writes only overwrite the
same value, as `k` reads the previous row only). -/
theorem innerFold_fst (f : Nat → Nat) (i : Nat) :
    ∀ (js : List Nat) (st : (Nat → Nat) × (Nat × Nat × Nat)) (x : Nat),
      (js.foldl (innerStep f i) st).1 x
        = if x ∈ js then (if x = 0 then 0 else f (x - 1)) + 1 else st.1 x := by
  intro js
  induction js with
  | nil => intro st x; simp
  | cons j rest ih =>
      intro st x
      rw [List.foldl_cons, ih]
      by_cases hx : x ∈ rest
      · rw [if_pos hx, if_pos (List.mem_cons_of_mem j hx)]
      · rw [if_neg hx, innerStep_fst]
        by_cases hxj : x = j
        · subst hxj
          rw [if_pos rfl, if_pos (List.mem_cons_self x rest)]
        · rw [if_neg hxj, if_neg (by
            intro hmem
            rcases List.mem_cons.mp hmem with h | h
            · exact hxj h
            · exact hx h)]

/-- The best-block component of the inner fold only depends on the previous
row and the best so far. -/
theorem innerFold_snd (f : Nat → Nat) (i : Nat) :
    ∀ (js : List Nat) (st : (Nat → Nat) × (Nat × Nat × Nat)),
      (js.foldl (innerStep f i) st).2 = js.foldl (bestStep f i) st.2 := by
  intro js
  induction js with
  | nil => intro st; rfl
  | cons j rest ih =>
      intro st
      rw [List.foldl_cons, List.foldl_cons, ih, innerStep_snd]

/-- A fold of `bestStep` over occupants whose `k` never beats the current
best leaves the best unchanged. -/
theorem bestFold_no_update (f : Nat → Nat) (i : Nat) :
    ∀ (l : List Nat) (b0 : Nat × Nat × Nat),
      (∀ j ∈ l, (if j = 0 then 0 else f (j - 1)) + 1 ≤ b0.2.2) →
      l.foldl (bestStep f i) b0 = b0 := by
  intro l
  induction l with
  | nil => intro b0 _; rfl
  | cons j rest ih =>
      intro b0 h
      rw [List.foldl_cons, bestStep]
      rw [if_neg (by
        have := h j (List.mem_cons_self j rest)
        omega)]
      exact ih b0 (fun j' hj' => h j' (List.mem_cons_of_mem j hj'))

/-- A strictly sorted list splits around any member. -/
theorem sorted_split :
    ∀ (l : List Nat), l.Pairwise (· < ·) → ∀ i ∈ l,
      ∃ A B, l = A ++ i :: B ∧ (∀ x ∈ A, x < i) ∧ (∀ x ∈ B, i < x) := by
  intro l
  induction l with
  | nil => intro _ i hi; simp at hi
  | cons y rest ih =>
      intro hpw i hi
      have hpw' := List.pairwise_cons.mp hpw
      rcases List.mem_cons.mp hi with rfl | hrest
      · exact ⟨[], rest, rfl, by intro x hx; simp at hx, hpw'.1⟩
      · obtain ⟨A, B, hsplit, hA, hB⟩ := ih hpw'.2 i hrest
        refine ⟨y :: A, B, by rw [hsplit]; rfl, ?_, hB⟩
        intro x hx
        rcases List.mem_cons.mp hx with rfl | hxA
        · exact hpw'.1 i hrest
        · exact hA x hxA

theorem b2j_sorted (s : List Char) (c : Char) : (b2j s c).Pairwise (· < ·) := by
  rw [b2j]
  by_cases hp : 200 ≤ s.length ∧ s.length / 100 + 1 < s.count c
  · rw [if_pos hp]; exact List.Pairwise.nil
  · rw [if_neg hp]
    exact List.Pairwise.sublist (List.filter_sublist _) (List.pairwise_lt_range _)

/-- With `blo = 0`, `bhi = n` the scan's per-row filter keeps the whole
occurrence list. -/
theorem b2j_filter_id (s : List Char) (c : Char) :
    (b2j s c).filter (fun j => decide (0 ≤ j ∧ j < s.length)) = b2j s c := by
  apply List.filter_eq_self.mpr
  intro j hj
  have := mem_b2j_lt s c j hj
  simpa using this

/-- Scan invariant for `a = b = s` on the full rectangle: the row function is
the previous `chainM` row, and the best block is diagonal and dominates every
processed diagonal chain. -/
def ScanInvP (s : List Char) (i : Nat)
    (st : (Nat → Nat) × (Nat × Nat × Nat)) : Prop :=
  (∀ x, st.1 x = prevRow s i x)
  ∧ ∃ d m, st.2 = (d, d, m) ∧ ∀ x, x < i → chainM s x x ≤ m

theorem rowStep_scanInv (s : List Char) (i : Nat) (hi : i < s.length)
    (st : (Nat → Nat) × (Nat × Nat × Nat)) (hinv : ScanInvP s i st) :
    ScanInvP s (i + 1) (rowStep s s 0 s.length st i) := by
  obtain ⟨hrow, d, m, hbest, hmle⟩ := hinv
  have hjs : (b2j s (s.getD i ' ')).filter
      (fun j => decide (0 ≤ j ∧ j < s.length)) = b2j s (s.getD i ' ') :=
    b2j_filter_id s _
  have hkf : ∀ j ∈ b2j s (s.getD i ' '),
      (if j = 0 then 0 else st.1 (j - 1)) + 1 = chainM s i j := by
    intro j hj
    rw [chainM_eq_k s i j hj]
    by_cases hj0 : j = 0
    · rw [if_pos hj0, if_pos hj0]
    · rw [if_neg hj0, if_neg hj0, hrow]
  constructor
  · -- the new row is `chainM s i`
    intro x
    show (((b2j s (s.getD i ' ')).filter
        (fun j => decide (0 ≤ j ∧ j < s.length))).foldl (innerStep st.1 i)
        ((fun _ => 0), st.2)).1 x = prevRow s (i + 1) x
    rw [hjs, innerFold_fst]
    show _ = chainM s i x
    by_cases hx : x ∈ b2j s (s.getD i ' ')
    · rw [if_pos hx]
      exact hkf x hx
    · rw [if_neg hx, chainM_of_not_mem s i x hx]
  · -- the new best is diagonal and dominates rows `< i + 1`
    show ∃ d' m', (((b2j s (s.getD i ' ')).filter
        (fun j => decide (0 ≤ j ∧ j < s.length))).foldl (innerStep st.1 i)
        ((fun _ => 0), st.2)).2 = (d', d', m')
      ∧ ∀ x, x < i + 1 → chainM s x x ≤ m'
    rw [hjs, innerFold_snd]
    show ∃ d' m', (b2j s (s.getD i ' ')).foldl (bestStep st.1 i)
        ((fun _ : Nat => (0 : Nat)), st.2).2 = (d', d', m')
      ∧ ∀ x, x < i + 1 → chainM s x x ≤ m'
    by_cases hmem : i ∈ b2j s (s.getD i ' ')
    · obtain ⟨A, B, hsplit, hA, hB⟩ :=
        sorted_split (b2j s (s.getD i ' ')) (b2j_sorted s _) i hmem
      rw [hsplit, List.foldl_append, List.foldl_cons]
      have hAmem : ∀ j ∈ A, j ∈ b2j s (s.getD i ' ') := by
        intro j hj; rw [hsplit]; exact List.mem_append_left _ hj
      have hBmem : ∀ j ∈ B, j ∈ b2j s (s.getD i ' ') := by
        intro j hj
        rw [hsplit]
        exact List.mem_append_right _ (List.mem_cons_of_mem i hj)
      have hAfold : A.foldl (bestStep st.1 i)
          ((fun _ : Nat => (0 : Nat)), st.2).2 = (d, d, m) := by
        show A.foldl (bestStep st.1 i) st.2 = (d, d, m)
        rw [hbest]
        apply bestFold_no_update
        intro j hj
        rw [hkf j (hAmem j hj)]
        have h1 := chainM_le_diag_right s i j
        have h2 := hmle j (hA j hj)
        show chainM s i j ≤ (d, d, m).2.2
        dsimp only
        omega
      rw [hAfold]
      have hki := hkf i hmem
      rw [bestStep]
      by_cases hup : (d, d, m).2.2 < (if i = 0 then 0 else st.1 (i - 1)) + 1
      · rw [if_pos hup]
        rw [hki] at hup
        dsimp only at hup
        refine ⟨i + 1 - chainM s i i, chainM s i i, ?_, ?_⟩
        · rw [bestFold_no_update]
          · rw [hki]
          · intro j hj
            rw [hkf j (hBmem j hj)]
            have := chainM_le_diag_left s i j hi
            show chainM s i j ≤ ((i + 1 - _, _, _) : Nat × Nat × Nat).2.2
            dsimp only
            rw [hki]
            omega
        · intro x hx
          rcases Nat.lt_succ_iff_lt_or_eq.mp hx with hlt | rfl
          · have := hmle x hlt
            omega
          · exact le_refl _
      · rw [if_neg hup]
        rw [hki] at hup
        dsimp only at hup
        refine ⟨d, m, ?_, ?_⟩
        · apply bestFold_no_update
          intro j hj
          rw [hkf j (hBmem j hj)]
          have := chainM_le_diag_left s i j hi
          show chainM s i j ≤ ((d, d, m) : Nat × Nat × Nat).2.2
          dsimp only
          omega
        · intro x hx
          rcases Nat.lt_succ_iff_lt_or_eq.mp hx with hlt | rfl
          · exact hmle x hlt
          · omega
    · -- the row's character is junked: the occurrence list is empty
      have hempty : b2j s (s.getD i ' ') = [] := by
        rcases hcase : b2j s (s.getD i ' ') with _ | ⟨j, tl⟩
        · rfl
        · exfalso
          apply hmem
          have hj : j ∈ b2j s (s.getD i ' ') := by
            rw [hcase]; exact List.mem_cons_self j tl
          exact mem_b2j_self s _ j i hj hi rfl
      rw [hempty]
      refine ⟨d, m, hbest, ?_⟩
      intro x hx
      rcases Nat.lt_succ_iff_lt_or_eq.mp hx with hlt | rfl
      · exact hmle x hlt
      · rw [chainM_of_not_mem s x x hmem]
        omega

theorem rowsFold_scanInv (s : List Char) :
    ∀ (Δ t0 : Nat) (st : (Nat → Nat) × (Nat × Nat × Nat)),
      ScanInvP s t0 st → t0 + Δ ≤ s.length →
      ScanInvP s (t0 + Δ)
        (((List.range Δ).map (fun t => t0 + t)).foldl (rowStep s s 0 s.length) st) := by
  intro Δ
  induction Δ with
  | zero => intro t0 st h _; exact h
  | succ Δ ih =>
      intro t0 st h hΔ
      rw [List.range_succ_eq_map, List.map_cons, List.map_map, List.foldl_cons]
      have hmap : (List.range Δ).map ((fun t => t0 + t) ∘ Nat.succ)
          = (List.range Δ).map (fun t => (t0 + 1) + t) := by
        apply List.map_congr_left
        intro x _
        simp [Function.comp]
        omega
      rw [hmap]
      have hstep := rowStep_scanInv s t0 (by omega) st h
      have := ih (t0 + 1) _ hstep (by omega)
      have harith : t0 + 1 + Δ = t0 + (Δ + 1) := by omega
      rw [harith] at this
      exact this

theorem scanBest_diag (s : List Char) :
    ∃ d m, scanBest s s 0 s.length 0 s.length = (d, d, m)
      ∧ d + m ≤ s.length := by
  have hwf := scanBest_wf s s 0 s.length 0 s.length (Nat.zero_le _) (Nat.zero_le _)
  rw [scanBest] at hwf ⊢
  have h0 : ScanInvP s 0 ((fun _ : Nat => (0 : Nat)), ((0 : Nat), (0 : Nat), (0 : Nat))) := by
    constructor
    · intro x; rfl
    · exact ⟨0, 0, rfl, by intro x hx; omega⟩
  have := rowsFold_scanInv s (s.length - 0) 0 _ h0 (by omega)
  obtain ⟨_, d, m, hbest, _⟩ := this
  refine ⟨d, m, hbest, ?_⟩
  rw [hbest] at hwf
  obtain ⟨w1, w2, w3, w4⟩ := hwf
  dsimp only at w2
  exact w2

theorem keepAt_true (b : List Char) (y : Nat) (hy : y < b.length) :
    keepAt b (fun _ => true) y = true := by
  rw [keepAt]
  rcases hm : b.get? y with _ | c
  · rw [List.get?_eq_getElem?] at hm
    rw [List.getElem?_eq_none_iff] at hm
    omega
  · rfl

theorem matchAt_self (s : List Char) (y : Nat) (hy : y < s.length) :
    matchAt s s y y = true := by
  rw [matchAt]
  rcases hm : s.get? y with _ | c
  · rw [List.get?_eq_getElem?] at hm
    rw [List.getElem?_eq_none_iff] at hm
    omega
  · simp

theorem extendFront_diag (s : List Char) :
    ∀ (fuel d m : Nat), d ≤ fuel → d + m ≤ s.length →
      extendFront s s 0 0 (fun _ => true) fuel (d, d, m) = (0, 0, m + d) := by
  intro fuel
  induction fuel with
  | zero =>
      intro d m hd _
      have : d = 0 := by omega
      subst this
      rfl
  | succ fuel ih =>
      intro d m hd hdm
      rw [extendFront]
      by_cases hd0 : d = 0
      · subst hd0
        rw [if_neg (by intro hcon; exact absurd hcon.1 (by omega))]
        rw [Nat.add_zero]
      · have hd1 : 0 < d := by omega
        have hdn : d - 1 < s.length := by omega
        rw [if_pos ⟨hd1, hd1, keepAt_true s (d - 1) hdn, matchAt_self s (d - 1) hdn⟩]
        have := ih (d - 1) (m + 1) (by omega) (by omega)
        rw [this]
        have harith : m + 1 + (d - 1) = m + d := by omega
        rw [harith]

theorem extendBack_diag (s : List Char) :
    ∀ (fuel k : Nat), s.length - k ≤ fuel → k ≤ s.length →
      extendBack s s s.length s.length (fun _ => true) fuel (0, 0, k)
        = (0, 0, s.length) := by
  intro fuel
  induction fuel with
  | zero =>
      intro k h1 h2
      have : k = s.length := by omega
      subst this
      rfl
  | succ fuel ih =>
      intro k h1 h2
      rw [extendBack]
      by_cases hk : k = s.length
      · subst hk
        rw [if_neg (by intro hcon; exact absurd hcon.1 (by omega))]
      · have hkn : k < s.length := by omega
        rw [if_pos ⟨by omega, by omega,
          keepAt_true s (0 + k) (by omega), matchAt_self s (0 + k) (by omega)⟩]
        exact ih (k + 1) (by omega) (by omega)

theorem extendFront_false (a b : List Char) (alo blo : Nat) :
    ∀ (fuel : Nat) (st : Nat × Nat × Nat),
      extendFront a b alo blo (fun _ => false) fuel st = st := by
  intro fuel
  cases fuel with
  | zero => intro st; rfl
  | succ fuel =>
      intro st
      obtain ⟨bi, bj, bk⟩ := st
      rw [extendFront]
      rw [if_neg (by
        intro hcon
        have := hcon.2.2.1
        rw [keepAt] at this
        rcases hm : b.get? (bj - 1) with _ | c
        · rw [hm] at this; simp at this
        · rw [hm] at this; simp at this)]

theorem extendBack_false (a b : List Char) (ahi bhi : Nat) :
    ∀ (fuel : Nat) (st : Nat × Nat × Nat),
      extendBack a b ahi bhi (fun _ => false) fuel st = st := by
  intro fuel
  cases fuel with
  | zero => intro st; rfl
  | succ fuel =>
      intro st
      obtain ⟨bi, bj, bk⟩ := st
      rw [extendBack]
      rw [if_neg (by
        intro hcon
        have := hcon.2.2.1
        rw [keepAt] at this
        rcases hm : b.get? (bj + bk) with _ | c
        · rw [hm] at this; simp at this
        · rw [hm] at this; simp at this)]

theorem findLongestMatch_self (s : List Char) :
    findLongestMatch s s 0 s.length 0 s.length = (0, 0, s.length) := by
  obtain ⟨d, m, hscan, hdm⟩ := scanBest_diag s
  rw [findLongestMatch, hscan]
  dsimp only
  simp only [Nat.sub_zero]
  rw [extendFront_diag s d d m (le_refl d) hdm]
  dsimp only
  rw [show s.length - (0 + (m + d)) = s.length - (m + d) from by omega]
  rw [extendBack_diag s (s.length - (m + d)) (m + d) (le_refl _) (by omega)]
  rw [extendFront_false, extendBack_false]

theorem findLongestMatch_empty (a b : List Char) (x y : Nat) :
    findLongestMatch a b x x y y = (x, y, 0) := by
  have hscan : scanBest a b x x y y = (x, y, 0) := by
    rw [scanBest, Nat.sub_self]
    rfl
  rw [findLongestMatch, hscan]
  dsimp only
  simp only [Nat.sub_self, Nat.add_zero]
  rw [show extendFront a b x y (fun _ => true) 0 (x, y, 0) = (x, y, 0) from rfl]
  dsimp only
  simp only [Nat.add_zero, Nat.sub_self]
  rw [show extendBack a b x y (fun _ => true) 0 (x, y, 0) = (x, y, 0) from rfl]
  rw [extendFront_false, extendBack_false]

theorem matchTotal_empty (a b : List Char) :
    ∀ (fuel x y : Nat), matchTotal a b fuel (x, x, y, y) = 0 := by
  intro fuel
  cases fuel with
  | zero => intro x y; rfl
  | succ fuel =>
      intro x y
      rw [matchTotal, findLongestMatch_empty]
      dsimp only
      rw [if_pos rfl]

theorem ratioOf_self (s : List Char) : ratioOf s s = 1 := by
  rw [ratioOf]
  by_cases h : s.length + s.length = 0
  · rw [if_pos h]
  · rw [if_neg h]
    have hn0 : ¬ s.length = 0 := by omega
    have hM : matchTotal s s (s.length + s.length + 1) (0, s.length, 0, s.length)
        = s.length := by
      rw [matchTotal, findLongestMatch_self]
      dsimp only
      rw [if_neg hn0]
      simp only [Nat.zero_add]
      rw [matchTotal_empty, matchTotal_empty]
      omega
    rw [hM]
    rw [Rat.mkRat_eq_div]
    have hn : ((s.length + s.length : Nat) : ℚ) ≠ 0 := by exact_mod_cast h
    rw [div_eq_one_iff_eq (by push_cast at hn ⊢; exact_mod_cast hn)]
    push_cast
    ring

end Difflib

/-- **C7 amended.** The similarity scorer is reflexive — `sim(a,a) = 1.0` for
every fragment, including under difflib's autojunk regime (the scan's best
block on identical inputs is always diagonal, and the extension loops widen it
to the full string) — and it is the case-insensitive weighted combination of
title similarity (0.6) and 200-character content-prefix similarity (0.4),
each a normalized ratio in `[0, 1]`, so `sim` itself lies in `[0, 1]`.  It is
**not** symmetric (see the counterexample). -/
theorem c7_similarity_reflexive_bounded :
    (∀ p : Fusion.KnowledgePoint, Fusion.calculateSimilarity p p = 1)
    ∧ (∀ p q : Fusion.KnowledgePoint,
        0 ≤ Fusion.calculateSimilarity p q ∧ Fusion.calculateSimilarity p q ≤ 1) := by
  constructor
  · intro p
    rw [Fusion.calculateSimilarity]
    rw [Difflib.ratioOf_self, Difflib.ratioOf_self]
    norm_num
  · intro p q
    rw [Fusion.calculateSimilarity]
    have h1 := Difflib.ratioOf_nonneg (Fusion.lowerChars p.title.data)
      (Fusion.lowerChars q.title.data)
    have h2 := Difflib.ratioOf_le_one (Fusion.lowerChars p.title.data)
      (Fusion.lowerChars q.title.data)
    have h3 := Difflib.ratioOf_nonneg (Fusion.lowerChars (p.content.data.take 200))
      (Fusion.lowerChars (q.content.data.take 200))
    have h4 := Difflib.ratioOf_le_one (Fusion.lowerChars (p.content.data.take 200))
      (Fusion.lowerChars (q.content.data.take 200))
    constructor
    · have c1 : (0 : ℚ) ≤ 3 / 5 := by norm_num
      have c2 : (0 : ℚ) ≤ 2 / 5 := by norm_num
      positivity
    · nlinarith
